import Mathlib

/-!
# Verification of the web-scrapper authentication-detection service

This file gives a shallow embedding, in Lean 4, of the core logic of the
`web-scrapper` repository (an authentication-component detection service):

* the HTML snippet truncator `truncateSnippet` (detector module);
* the AI-response parser `parseAIResponse` together with a small JSON
  parser modelling `JSON.parse` and the three cleanup regex passes;
* the detector entry points `detectAuthentication`, `detectWithAI` and
  `detectWithPatterns`, with live-page selector resolution modelled as an
  oracle `String → Option String` (a selector either resolves to the
  outer HTML of the first matching element, or does not resolve);
* the result cache `DetectionCache` (`normalizeURL`, `getTTL`, `get`,
  `set`, `has`, `delete`) over a model of WHATWG URL parsing restricted
  to hierarchical `scheme://host/path?query#fragment` URLs;
* a state-machine model of `BrowserPool.getBrowser` launch de-duplication;
* a scenario model of `scrapeWebsite` resource cleanup.

Conventions: JS strings are `String`/`List Char` (code-unit vs code-point
differences are ignored); JS `null`/`undefined` results are `Option`;
a thrown exception is `Option.none` at the function's boundary; wall-clock
time is an explicit `Nat` parameter (milliseconds); external effects
(Playwright page queries, the Gemini transport) are explicit parameters.
-/

set_option maxRecDepth 100000

/-! ## Character and list helpers -/

/-- ASCII word character of the JS regex class `[\w-]` (so `[A-Za-z0-9_]`
plus the literal `-` that the source adds in `([\w-]+)`). -/
def isWordChar (c : Char) : Bool :=
  c.isAlphanum || c = '_' || c = '-'

/-- JS `\s` whitespace, restricted to the ASCII blanks that can occur in
the strings we model: space, tab, newline, carriage return, form feed,
vertical tab. -/
def isSpaceChar (c : Char) : Bool :=
  c = ' ' || c = '\t' || c = '\n' || c = '\r' || c = '\x0b' || c = '\x0c'

/-- ASCII lower-casing of a single character (the host lower-casing that
WHATWG URL parsing applies to ASCII hosts, and `toLowerCase` on the
ASCII provider names). Written as an explicit table to keep proofs about
it elementary. -/
def lowerA (c : Char) : Char :=
  match c with
  | 'A' => 'a' | 'B' => 'b' | 'C' => 'c' | 'D' => 'd' | 'E' => 'e'
  | 'F' => 'f' | 'G' => 'g' | 'H' => 'h' | 'I' => 'i' | 'J' => 'j'
  | 'K' => 'k' | 'L' => 'l' | 'M' => 'm' | 'N' => 'n' | 'O' => 'o'
  | 'P' => 'p' | 'Q' => 'q' | 'R' => 'r' | 'S' => 's' | 'T' => 't'
  | 'U' => 'u' | 'V' => 'v' | 'W' => 'w' | 'X' => 'x' | 'Y' => 'y'
  | 'Z' => 'z'
  | other => other

/-- `needle` occurs as a contiguous substring of `hay` (models JS
`String.prototype.includes`). -/
def containsSub (needle hay : List Char) : Bool :=
  if needle.isPrefixOf hay then true
  else
    match hay with
    | [] => needle.isEmpty
    | _ :: t => containsSub needle t

/-- `Option`-valued map over a list: `some` of the image list when every
element maps to `some`, otherwise `none` (models `Promise.all` over an
array of fallible operations, where one rejection rejects the whole). -/
def optMap (f : α → Option β) : List α → Option (List β)
  | [] => some []
  | a :: as =>
    match f a, optMap f as with
    | some b, some bs => some (b :: bs)
    | _, _ => none

/-! ## SnippetTruncator (`truncateSnippet`, detector module)

The source truncates an HTML snippet to `CONFIG.HTML.MAX_SNIPPET = 1500`
characters, backtracks to the last complete tag boundary when the cut
lands mid-tag, re-scans the truncated text with the global regex
`/<(\/?)([\w-]+)[^>]*>/g` pushing open tags and popping matching close
tags, and appends closing tags for everything left open.

The regex scan is modelled as a character automaton: a match starts at a
`<`, optionally takes `/`, then a maximal non-empty run of `[\w-]`
characters (the captured tag name), then eats every character up to the
first `>` (the greedy `[^>]*` can eat `<` but never `>`), and the match
ends at that `>`; a candidate `<` with no word character after the
optional slash, or with no later `>`, matches nothing, and scanning
resumes as the regex engine would. -/

/-- One emitted tag of the regex scan: closing flag (`match[1] === '/'`),
captured name (`match[2]`), and self-closing flag
(`match[0].endsWith('/>')`, i.e. the character just before the final `>`
is `/`). -/
structure TagTok where
  closing : Bool
  name : List Char
  selfClose : Bool
deriving DecidableEq, Repr

/-- Scanner mode of the tag regex automaton. `name`'s accumulator and
`attrs`' captured name are kept reversed/forward as noted. -/
inductive TagMode where
  /-- not inside a candidate match -/
  | out
  /-- just consumed a `<` -/
  | lt
  /-- consumed `<` then `/` -/
  | slash
  /-- inside the `[\w-]+` name run; `acc` holds the name so far, reversed -/
  | name (closing : Bool) (acc : List Char)
  /-- inside `[^>]*`; `nm` is the captured name, `prev` the last consumed
  character (used for the `endsWith('/>')` test) -/
  | attrs (closing : Bool) (nm : List Char) (prev : Char)
deriving DecidableEq, Repr

/-- One automaton step: possibly emitted token, and successor mode. -/
def stepMode : TagMode → Char → Option TagTok × TagMode
  | .out, c => (none, if c = '<' then .lt else .out)
  | .lt, c =>
    if c = '<' then (none, .lt)
    else if c = '/' then (none, .slash)
    else if isWordChar c then (none, .name false [c])
    else (none, .out)
  | .slash, c =>
    if c = '<' then (none, .lt)
    else if isWordChar c then (none, .name true [c])
    else (none, .out)
  | .name closing acc, c =>
    if isWordChar c then (none, .name closing (c :: acc))
    else if c = '>' then (some ⟨closing, acc.reverse, false⟩, .out)
    else (none, .attrs closing acc.reverse c)
  | .attrs closing nm prev, c =>
    if c = '>' then (some ⟨closing, nm, prev = '/'⟩, .out)
    else (none, .attrs closing nm c)

/-- Run the tag scanner from a mode, collecting emitted tokens. -/
def runTokens (m : TagMode) : List Char → List TagTok
  | [] => []
  | c :: rest =>
    match stepMode m c with
    | (some tok, m') => tok :: runTokens m' rest
    | (none, m') => runTokens m' rest

/-- Mode reached after scanning a character list. -/
def finalMode (m : TagMode) (cs : List Char) : TagMode :=
  cs.foldl (fun m c => (stepMode m c).2) m

/-- All successive matches of `/<(\/?)([\w-]+)[^>]*>/g` over a string. -/
def tagTokens (cs : List Char) : List TagTok :=
  runTokens .out cs

/-- The body of the source's tag-stack while loop: closing tags pop the
top of the stack when it matches, non-self-closing opening tags push
their name, self-closing tags are ignored. The stack's top is the list
head (the source pushes/pops at the array's end). -/
def walkStep (stack : List (List Char)) (t : TagTok) : List (List Char) :=
  if t.name.isEmpty then stack
  else if t.closing then
    match stack with
    | top :: rest => if top = t.name then rest else stack
    | [] => []
  else if t.selfClose then stack
  else t.name :: stack

/-- Open-tag stack left by the tag-stack walk of a character list
(top first). -/
def tagWalk (cs : List Char) : List (List Char) :=
  (tagTokens cs).foldl walkStep []

/-- Closing tags `</tag>` for a stack of open tags, top of stack first
(the source pops from the array's end and appends each closer). -/
def closersChars (stack : List (List Char)) : List Char :=
  stack.foldr (fun nm acc => '<' :: '/' :: (nm ++ '>' :: acc)) []

/-- The mid-tag backtrack: if the last `<` of the truncated text comes
after its last `>` (`lastOpenTag > lastCloseTag`), cut the text at that
`<` (`truncated.slice(0, lastOpenTag)`); otherwise keep it unchanged.
Implemented by scanning the reversed text for the first `<` or `>`. -/
def dropPartialTag (t : List Char) : List Char :=
  match t.reverse.dropWhile (fun c => c ≠ '<' && c ≠ '>') with
  | '<' :: r => r.reverse
  | _ => t

/-- Every `<` in the list is followed (strictly later) by some `>`; the
condition under which the tag scan of a prefix cannot have a pending
match that would extend into appended text. -/
def closedTags : List Char → Bool
  | [] => true
  | c :: rest => (if c = '<' then rest.contains '>' else true) && closedTags rest

/-- `CONFIG.HTML.MAX_SNIPPET`. -/
def MAX_SNIPPET : Nat := 1500

/-- `truncateSnippet` (detector module): inputs within the cap are
returned unchanged; longer inputs are cut at the cap, backtracked off a
partial trailing tag, and the tags left open by the tag-stack walk are
closed in reverse order. -/
def truncateSnippet (snippet : String) : String :=
  if snippet.length ≤ MAX_SNIPPET then snippet
  else
    let t := dropPartialTag (snippet.data.take MAX_SNIPPET)
    String.mk (t ++ closersChars (tagWalk t))

/-- Total length of the closing tags `truncateSnippet` appends to a given
input (zero when the input is within the cap). -/
def closersOverhead (snippet : String) : Nat :=
  if snippet.length ≤ MAX_SNIPPET then 0
  else (closersChars (tagWalk (dropPartialTag (snippet.data.take MAX_SNIPPET)))).length

/-! ## JSON model (`JSON.parse` and the AI-response cleanup passes)

`parseAIResponse` extracts a JSON span with `responseText.match(/\{[\s\S]*\}/)`
(greedy: from the first `{` to the last `}` of the whole text), then
applies three cleanup regexes in order — `,(\s*[}\]])` → `$1` (trailing
commas), `\/\/.*$` per line (line comments), `\/\*[\s\S]*?\*\//` (block
comments) — and finally `JSON.parse`s the result.

The JSON parser below models `JSON.parse` closely enough for the inputs
at issue: objects, arrays, strings (with single-character escapes; the
`\uXXXX` form and control-character strictness are not modelled), the
standard number grammar, `true`/`false`/`null`, and a
whole-input-consumed check. Duplicate object keys resolve to the last
occurrence, as in JS. -/

/-- A parsed JSON value. Numbers keep their lexeme. -/
inductive JVal where
  | null
  | bool (b : Bool)
  | num (lexeme : List Char)
  | str (s : List Char)
  | arr (xs : List JVal)
  | obj (fields : List (List Char × JVal))

/-- Single-character string escapes of JSON. -/
def escChar (c : Char) : Char :=
  if c = 'n' then '\n'
  else if c = 't' then '\t'
  else if c = 'r' then '\r'
  else if c = 'b' then '\x08'
  else if c = 'f' then '\x0c'
  else c

/-- Lex a JSON string body (the opening quote already consumed); returns
the decoded characters and the rest after the closing quote. -/
def lexString : List Char → Option (List Char × List Char)
  | [] => none
  | '"' :: rest => some ([], rest)
  | '\\' :: c :: rest =>
    match lexString rest with
    | some (s, r) => some (escChar c :: s, r)
    | none => none
  | c :: rest =>
    match lexString rest with
    | some (s, r) => some (c :: s, r)
    | none => none

/-- Digit run helper for the number grammar. -/
def takeDigits (cs : List Char) : List Char × List Char :=
  (cs.takeWhile Char.isDigit, cs.dropWhile Char.isDigit)

/-- Lex a JSON number: `-?(0|[1-9][0-9]*)(\.[0-9]+)?([eE][+-]?[0-9]+)?`.
Returns the lexeme and the rest. -/
def lexNumber (cs : List Char) : Option (List Char × List Char) :=
  let (neg, cs1) := match cs with
    | '-' :: r => (['-'], r)
    | r => (([] : List Char), r)
  let (intPart, cs2) := takeDigits cs1
  let intOk := match intPart with
    | [] => false
    | ['0'] => true
    | d :: _ => d ≠ '0'
  if !intOk then none
  else
    let (fracPart, cs3) := match cs2 with
      | '.' :: r =>
        let (ds, r') := takeDigits r
        if ds.isEmpty then (([] : List Char), cs2) else ('.' :: ds, r')
      | _ => (([] : List Char), cs2)
    let fracFailed := (match cs2 with | '.' :: _ => fracPart.isEmpty | _ => false)
    if fracFailed then none
    else
      let (expPart, cs4) := match cs3 with
        | e :: r =>
          if e = 'e' ∨ e = 'E' then
            let (sgn, r1) := match r with
              | s :: r2 => if s = '+' ∨ s = '-' then ([s], r2) else (([] : List Char), r)
              | [] => (([] : List Char), r)
            let (ds, r2) := takeDigits r1
            if ds.isEmpty then (([] : List Char), cs3) else (e :: (sgn ++ ds), r2)
          else (([] : List Char), cs3)
        | [] => (([] : List Char), cs3)
      some (neg ++ intPart ++ fracPart ++ expPart, cs4)

/-- Skip JSON whitespace. -/
def skipWs (cs : List Char) : List Char :=
  cs.dropWhile (fun c => c = ' ' || c = '\t' || c = '\n' || c = '\r')

/-- Leading-keyword check used for `true`/`false`/`null`. -/
def expectLit (lit : List Char) (cs : List Char) : Option (List Char) :=
  if lit.isPrefixOf cs then some (cs.drop lit.length) else none

/-- Parse mode of the fueled JSON parser: a single value, the members of
an object (after at least one member is known to follow), or the
elements of an array. -/
inductive PMode where
  | val
  | objBody (acc : List (List Char × JVal))
  | arrBody (acc : List JVal)

/-- Fueled recursive-descent JSON parser. The fuel only needs to exceed
the number of recursion steps; callers pass the input length plus one. -/
def pj : Nat → PMode → List Char → Option (JVal × List Char)
  | 0, _, _ => none
  | fuel + 1, .val, cs =>
    match skipWs cs with
    | [] => none
    | c :: rest =>
      if c = '{' then
        match skipWs rest with
        | '}' :: r2 => some (.obj [], r2)
        | r2 => pj fuel (.objBody []) r2
      else if c = '[' then
        match skipWs rest with
        | ']' :: r2 => some (.arr [], r2)
        | r2 => pj fuel (.arrBody []) r2
      else if c = '"' then
        match lexString rest with
        | some (s, r) => some (.str s, r)
        | none => none
      else if c = 't' then
        (expectLit ['r', 'u', 'e'] rest).map (fun r => (.bool true, r))
      else if c = 'f' then
        (expectLit ['a', 'l', 's', 'e'] rest).map (fun r => (.bool false, r))
      else if c = 'n' then
        (expectLit ['u', 'l', 'l'] rest).map (fun r => (.null, r))
      else
        match lexNumber (c :: rest) with
        | some (lex, r) => some (.num lex, r)
        | none => none
  | fuel + 1, .objBody acc, cs =>
    match skipWs cs with
    | '"' :: rest =>
      match lexString rest with
      | none => none
      | some (k, r1) =>
        match skipWs r1 with
        | ':' :: r2 =>
          match pj fuel .val r2 with
          | none => none
          | some (v, r3) =>
            match skipWs r3 with
            | ',' :: r4 => pj fuel (.objBody (acc ++ [(k, v)])) r4
            | '}' :: r4 => some (.obj (acc ++ [(k, v)]), r4)
            | _ => none
        | _ => none
    | _ => none
  | fuel + 1, .arrBody acc, cs =>
    match pj fuel .val cs with
    | none => none
    | some (v, r1) =>
      match skipWs r1 with
      | ',' :: r2 => pj fuel (.arrBody (acc ++ [v])) r2
      | ']' :: r2 => some (.arr (acc ++ [v]), r2)
      | _ => none

/-- `JSON.parse`: parse one value and require only whitespace after it. -/
def jsonParse (cs : List Char) : Option JVal :=
  match pj (cs.length + 1) .val cs with
  | some (v, rest) => if (skipWs rest).isEmpty then some v else none
  | none => none

/-- Field access `obj[key]` on a parsed JSON value: `none` models JS
`undefined` (missing field, or property access on a primitive, which in
JS yields `undefined` rather than throwing). Duplicate keys: last wins. -/
def getField (v : JVal) (key : String) : Option JVal :=
  match v with
  | .obj fields =>
    match fields.reverse.find? (fun f => f.1 = key.data) with
    | some f => some f.2
    | none => none
  | _ => none

/-- JS truthiness of a parsed JSON value (`x || false` yields `false`
exactly on falsy `x`). A number is falsy when its mantissa has no
non-zero digit. -/
def jsTruthy : Option JVal → Bool
  | none => false
  | some .null => false
  | some (.bool b) => b
  | some (.str s) => !s.isEmpty
  | some (.num lex) =>
    (lex.takeWhile (fun c => c ≠ 'e' && c ≠ 'E')).any (fun c => c.isDigit && c ≠ '0')
  | some (.arr _) => true
  | some (.obj _) => true

/-! ### The three cleanup passes, in source order -/

/-- Pass 1, `.replace(/,(\s*[}\]])/g, '$1')`: drop a comma followed by
whitespace and a closing bracket; scanning resumes after the bracket.
The state `some buf` records a pending comma with `buf` the whitespace
seen so far (reversed). -/
def stripCommasGo : Option (List Char) → List Char → List Char
  | none, [] => []
  | some buf, [] => ',' :: buf.reverse
  | none, c :: rest =>
    if c = ',' then stripCommasGo (some []) rest
    else c :: stripCommasGo none rest
  | some buf, c :: rest =>
    if isSpaceChar c then stripCommasGo (some (c :: buf)) rest
    else if c = '}' || c = ']' then buf.reverse ++ c :: stripCommasGo none rest
    else if c = ',' then ',' :: buf.reverse ++ stripCommasGo (some []) rest
    else ',' :: buf.reverse ++ c :: stripCommasGo none rest

/-- Pass 2, `.replace(/\/\/.*$/gm, '')`: from `//` to the end of the
line (the line terminator itself is kept). -/
def stripLineComments : Bool → List Char → List Char
  | false, [] => []
  | false, '/' :: '/' :: rest => stripLineComments true rest
  | false, c :: rest => c :: stripLineComments false rest
  | true, [] => []
  | true, c :: rest =>
    if c = '\n' ∨ c = '\r' then c :: stripLineComments false rest
    else stripLineComments true rest

/-- Pass 3, `.replace(/\/\*[\s\S]*?\*\//g, '')`: lazy block comments; an
unterminated `/*` has no match and is kept verbatim (the buffer is
re-emitted at the end). -/
def stripBlockComments : Option (List Char) → List Char → List Char
  | none, [] => []
  | none, '/' :: '*' :: rest => stripBlockComments (some []) rest
  | none, c :: rest => c :: stripBlockComments none rest
  | some _, '*' :: '/' :: rest => stripBlockComments none rest
  | some buf, c :: rest => stripBlockComments (some (c :: buf)) rest
  | some buf, [] => '/' :: '*' :: buf.reverse

/-- The three cleanup passes composed in source order. -/
def cleanJSON (cs : List Char) : List Char :=
  stripBlockComments none (stripLineComments false (stripCommasGo none cs))

/-- The span matched by `/\{[\s\S]*\}/`: from the first `{` of the text
to the last `}`, provided that `}` comes after that `{`; `none` when the
regex has no match. -/
def extractSpan (cs : List Char) : Option (List Char) :=
  match cs.dropWhile (fun c => c ≠ '{') with
  | '{' :: rest =>
    match rest.reverse.dropWhile (fun c => c ≠ '}') with
    | [] => none
    | r => some ('{' :: r.reverse)
  | _ => none

/-- The validated AI response: `found` is the truthiness of the parsed
`found` field (`parsed.found || false`), `components` is the parsed
`components` array when it is an array, else `[]`. Components are kept
as raw JSON values, as the source does (it never validates them). -/
structure AIDetectionResponse where
  found : Bool
  components : List JVal

/-- Shared tail of `parseAIResponse` after span extraction: clean the
span, `JSON.parse` it (`none` models the thrown
`Failed to parse AI response`), and read `found`/`components`. -/
def processSpan (span : List Char) : Option AIDetectionResponse :=
  match jsonParse (cleanJSON span) with
  | none => none
  | some v =>
    let comps := match getField v "components" with
      | some (.arr xs) => xs
      | _ => []
    some ⟨jsTruthy (getField v "found"), comps⟩

/-- `parseAIResponse` (detector module). `none` models a throw: either
`No JSON found in AI response` (no `{...}` span) or
`Failed to parse AI response` (the cleaned span does not parse). -/
def parseAIResponse (responseText : String) : Option AIDetectionResponse :=
  match extractSpan responseText.data with
  | none => none
  | some span => processSpan span

/-- Modelled from the spec: § 4.5 step 5 reads "extract the first
balanced `{...}` block from the raw text". The repository has no such
function — this is the comparison definition for the refinement claim:
scan from the first `{`, tracking brace depth, and stop at the `}` that
returns the depth to zero. -/
def firstBalancedSpanAux : Nat → List Char → List Char → Option (List Char)
  | _, _, [] => none
  | depth, acc, c :: rest =>
    if c = '}' then
      if depth = 1 then some ((c :: acc).reverse)
      else firstBalancedSpanAux (depth - 1) (c :: acc) rest
    else if c = '{' then firstBalancedSpanAux (depth + 1) (c :: acc) rest
    else firstBalancedSpanAux depth (c :: acc) rest

/-- Modelled from the spec: the first balanced `{...}` block of a text
(`none` when no such block closes). -/
def firstBalancedSpan (cs : List Char) : Option (List Char) :=
  match cs.dropWhile (fun c => c ≠ '{') with
  | '{' :: rest => firstBalancedSpanAux 1 ['{'] rest
  | _ => none

/-- Modelled from the spec: `parseAIResponse` as § 4.5 step 5 describes
it, with the first *balanced* block in place of the greedy regex span. -/
def parseAIResponseSpec (responseText : String) : Option AIDetectionResponse :=
  match firstBalancedSpan responseText.data with
  | none => none
  | some span => processSpan span

/-! ## Detector data model (`auth.types`)

`AuthComponent.type` is kept as a `String`: the TS type is the closed
union `'traditional' | 'oauth' | 'passwordless'`, but the AI path stores
unvalidated JSON into it, and `intelligentFallbackExtraction` dispatches
on the string with a default case for anything else. -/

/-- `AuthComponent.details`. -/
structure AuthDetails where
  fields : Option (List String) := none
  providers : Option (List String) := none
  method : Option String := none
  playwrightSelector : Option String := none
  extractionNote : Option String := none
deriving DecidableEq, Repr

/-- `AuthComponent`. -/
structure AuthComponent where
  type : String
  snippet : Option String := none
  details : AuthDetails := {}
deriving DecidableEq, Repr

/-- `DetectionResult.detectionMethod`. -/
inductive DMethod where
  | ai
  | pattern
  | hybrid
  | none
deriving DecidableEq, Repr

/-- `DetectionResult`. -/
structure DetectionResult where
  success : Bool
  url : String
  found : Bool
  components : List AuthComponent
  detectionMethod : DMethod
  error : Option String := Option.none
deriving DecidableEq, Repr

/-! ## Detector (`detectAuthentication` and helpers)

`extractWithSelector` resolves a Playwright selector on the live page:
it returns the outer HTML of the first matching element, or `null` when
the element is absent or any Playwright call fails (every failure is
caught and mapped to `null`). The live page is therefore modelled as an
oracle `String → Option String`; `none` is JS `null`. Wall-clock
timeouts inside the fallback cascade (`FALLBACK_OVERALL`,
`FALLBACK_PER_STRATEGY`) are not modelled: the model behaves as the code
does when no budget expires, and a strategy timeout is the same as that
strategy's oracle answering `none`. -/

/-- A live page, as the detector sees it: per-selector resolution. -/
def PageOracle : Type := String → Option String

/-- `extractWithSelector`: oracle lookup (failures are already `none`). -/
def extractWithSelector (o : PageOracle) (selector : String) : Option String :=
  o selector

/-- JS truthiness of `string | null` (the empty string is falsy). -/
def truthyStr : Option String → Bool
  | some s => !s.isEmpty
  | none => false

/-- Display form of a JSON value interpolated into a template literal
(`${c.type}`); approximate for arrays and objects, whose exact JS
stringification never matters to the properties proved here. -/
def jsDisplay : Option JVal → String
  | some (.str s) => String.mk s
  | some (.bool true) => "true"
  | some (.bool false) => "false"
  | some (.num lex) => String.mk lex
  | some .null => "null"
  | some (.arr _) => "[array]"
  | some (.obj _) => "[object Object]"
  | none => "undefined"

/-- Decode one raw AI component into the loosely-typed `AuthComponent`
shape the rest of the pipeline reads (`type`, `details.providers`,
`details.method`, `details.playwrightSelector`). Non-string entries keep
their display form, as a JS template literal would render them. -/
def decodeComponent (j : JVal) : AuthComponent :=
  let d := getField j "details"
  let dv := d.getD .null
  { type := jsDisplay (getField j "type")
    details :=
      { providers :=
          match getField dv "providers" with
          | some (.arr xs) => some (xs.map (fun x => jsDisplay (some x)))
          | _ => Option.none
        method :=
          match getField dv "method" with
          | some (.str s) => some (String.mk s)
          | _ => Option.none
        playwrightSelector :=
          match getField dv "playwrightSelector" with
          | some (.str s) => some (String.mk s)
          | _ => Option.none } }

/-- `buildOAuthStrategies`: the three locator strategies per provider. -/
def buildOAuthStrategies (provider : String) : List String :=
  [ "button:has-text(\"" ++ provider ++ "\")"
  , "button:has-text(\"Sign in with " ++ provider ++ "\")"
  , "[data-provider=\"" ++ provider.map lowerA ++ "\"]" ]

/-- `extractOAuthFallback`: try every strategy of every listed provider
in order, first truthy snippet wins; otherwise the descriptive
placeholder (elapsed-time figures are not modelled and rendered as the
budget figure the log line interpolates). -/
def extractOAuthFallback (o : PageOracle) (c : AuthComponent) : String :=
  let providers := c.details.providers.getD []
  let firstHit := providers.foldr
    (fun p acc =>
      match (buildOAuthStrategies p).foldr
        (fun sel acc2 => match extractWithSelector o sel with
          | some s => if s.isEmpty then acc2 else some s
          | Option.none => acc2) Option.none with
      | some s => some s
      | Option.none => acc) Option.none
  match firstHit with
  | some s => s
  | Option.none =>
    "<!-- OAuth detected: " ++ String.intercalate ", " providers ++
      " (extraction timed out after 8000ms) -->"

/-- `tryStrategiesSequentially`: first truthy snippet wins. -/
def tryStrategiesSequentially (o : PageOracle) (strategies : List String) :
    Option String :=
  strategies.foldr
    (fun sel acc => match extractWithSelector o sel with
      | some s => if s.isEmpty then acc else some s
      | Option.none => acc) Option.none

/-- `extractTraditionalFallback`. -/
def extractTraditionalFallback (o : PageOracle) : String :=
  match tryStrategiesSequentially o
    [ "form:has(input[type=\"password\"])"
    , "form[action*=\"login\"]"
    , "form[action*=\"signin\"]"
    , "form[action*=\"auth\"]" ] with
  | some s => s
  | Option.none => "<!-- Traditional login detected (could not extract HTML) -->"

/-- `extractPasswordlessFallback`. -/
def extractPasswordlessFallback (o : PageOracle) (c : AuthComponent) : String :=
  let method := c.details.method.getD ""
  match tryStrategiesSequentially o
    [ "button:has-text(\"" ++ method ++ "\")"
    , "button:has-text(\"passkey\")"
    , "button:has-text(\"magic link\")"
    , "input[inputmode=\"numeric\"]"
    , "webauthn-subtle" ] with
  | some s => s
  | Option.none =>
    "<!-- Passwordless (" ++ method ++ ") detected (could not extract HTML) -->"

/-- `intelligentFallbackExtraction`: string-keyed dispatch with a
placeholder default for unknown types. -/
def intelligentFallbackExtraction (o : PageOracle) (c : AuthComponent) : String :=
  if c.type = "oauth" then extractOAuthFallback o c
  else if c.type = "traditional" then extractTraditionalFallback o
  else if c.type = "passwordless" then extractPasswordlessFallback o c
  else "<!-- " ++ c.type ++ " auth detected (fallback failed) -->"

/-- `extractComponentSnippet` on one raw AI component. `none` models the
uncaught throw when `component.details` is `undefined` or `null` (the
`component.details.playwrightSelector` read happens before the `try`).
A falsy selector yields the no-selector placeholder; a truthy non-string
selector makes `page.locator` fail inside `extractWithSelector`, which
is caught there and behaves as a failed resolution; a failed resolution
routes to the type-specific fallback cascade. -/
def extractComponentSnippet (o : PageOracle) (j : JVal) : Option AuthComponent :=
  match getField j "details" with
  | Option.none => Option.none
  | some .null => Option.none
  | some dv =>
    let c := decodeComponent j
    let selRaw := getField dv "playwrightSelector"
    if !jsTruthy selRaw then
      let ph := "<!-- " ++ c.type ++ " auth detected but no selector provided -->"
      some { c with snippet := some ph }
    else
      let resolved := match selRaw with
        | some (.str s) => extractWithSelector o (String.mk s)
        | _ => Option.none
      if truthyStr resolved then
        some { c with snippet := some (truncateSnippet (resolved.getD "")) }
      else
        some { c with snippet := some (intelligentFallbackExtraction o c) }

/-- `extractSnippetsWithTimeout`: when the 20s extraction race is lost
(`timedOut`), every component gets a timed-out placeholder (no
`details` access, so no throw); otherwise all components are resolved
and one throw rejects the batch. -/
def extractSnippetsWithTimeout (o : PageOracle) (timedOut : Bool)
    (components : List JVal) : Option (List AuthComponent) :=
  if timedOut then
    some (components.map (fun j =>
      let c := decodeComponent j
      { c with snippet := some ("<!-- " ++ c.type ++ " detected but extraction timed out -->") }))
  else
    optMap (extractComponentSnippet o) components

/-- `detectWithAI`, as a function of the AI transport's raw response
text (`aiResponseText`) and of whether the snippet-extraction race timed
out. `none` models a throw escaping `detectWithAI` (unparseable
response, or a component without `details` outside the timeout branch);
the result is otherwise always `success := true` with `found` copied
from the parsed response and one output component per input component. -/
def detectWithAI (o : PageOracle) (url : String) (aiResponseText : String)
    (timedOut : Bool) : Option DetectionResult :=
  match parseAIResponse aiResponseText with
  | Option.none => Option.none
  | some aiResult =>
    match extractSnippetsWithTimeout o timedOut aiResult.components with
    | Option.none => Option.none
    | some componentsWithSnippets =>
      some { success := true
             url := url
             found := aiResult.found
             components := componentsWithSnippets
             detectionMethod := .ai }

/-- `detectTraditionalPattern`: password-form locator; classify fields
from the snippet text. -/
def detectTraditionalPattern (o : PageOracle) : Option AuthComponent :=
  match extractWithSelector o "form:has(input[type=\"password\"])" with
  | Option.none => Option.none
  | some formSnippet =>
    if formSnippet.isEmpty then Option.none
    else
      let fields :=
        (if containsSub "type=\"email\"".data formSnippet.data ||
            containsSub "type=\"text\"".data formSnippet.data
         then ["email"] else []) ++
        (if containsSub "type=\"password\"".data formSnippet.data
         then ["password"] else [])
      some { type := "traditional"
             snippet := some (truncateSnippet formSnippet)
             details := { fields := some fields } }

/-- The fixed provider list of `detectOAuthPattern`. -/
def oauthProviders : List String :=
  ["google", "facebook", "github", "twitter", "apple", "microsoft"]

/-- `detectOAuthPattern`: per-provider button scan; the found-provider
list keeps scan order, the snippet is the first truthy one. -/
def detectOAuthPattern (o : PageOracle) : Option AuthComponent :=
  let providerResults := oauthProviders.map (fun p =>
    (p, extractWithSelector o ("button:has-text(\"" ++ p ++ "\")")))
  let foundProviders := (providerResults.filter (fun r => truthyStr r.2)).map (·.1)
  let oauthSnippet := (providerResults.filter (fun r => truthyStr r.2)).head?.bind (·.2)
  if foundProviders.isEmpty then Option.none
  else
    some { type := "oauth"
           snippet := some (match oauthSnippet with
             | some s => if s.isEmpty then "<!-- OAuth: " ++ String.intercalate ", " foundProviders ++ " -->"
                         else truncateSnippet s
             | Option.none => "<!-- OAuth: " ++ String.intercalate ", " foundProviders ++ " -->")
           details := { providers := some foundProviders } }

/-- `detectWithPatterns`: both pattern checks, traditional first;
always `success := true`, `found` is component-list non-emptiness. -/
def detectWithPatterns (o : PageOracle) (url : String) : DetectionResult :=
  let components :=
    (match detectTraditionalPattern o with
     | some c => [c]
     | Option.none => []) ++
    (match detectOAuthPattern o with
     | some c => [c]
     | Option.none => [])
  { success := true
    url := url
    found := !components.isEmpty
    components := components
    detectionMethod := .pattern }

/-- JS truthiness of `process.env['GEMINI_API_KEY']` (`undefined` and
the empty string are falsy). -/
def apiKeyTruthy : Option String → Bool
  | some k => !k.isEmpty
  | Option.none => false

/-- `detectAuthentication`. The AI transport outcome is a parameter:
`aiTransport = none` models `model.generateContent` (or the 60s
`executeWithTimeout` race, or `response.text()`) rejecting; with a
truthy key and a transport response, a throw inside `detectWithAI` is
caught and the pattern path runs; the function itself never throws
(it is total). -/
def detectAuthentication (apiKey : Option String) (aiTransport : Option String)
    (timedOut : Bool) (o : PageOracle) (url : String) : DetectionResult :=
  if apiKeyTruthy apiKey then
    match aiTransport with
    | Option.none => detectWithPatterns o url
    | some responseText =>
      match detectWithAI o url responseText timedOut with
      | some aiResult => aiResult
      | Option.none => detectWithPatterns o url
  else
    detectWithPatterns o url

/-! ## URL model (`new URL(...)` as `DetectionCache` uses it)

`normalizeURL` and `getTTL` read only `protocol`, `hostname` and
`pathname` from the parsed URL. The parser below models WHATWG parsing
for hierarchical URLs with an explicit authority
(`scheme://[userinfo@]host[:port]/path[?query][#fragment]`): the scheme
is `[A-Za-z][A-Za-z0-9+.-]*` and is lower-cased, the host is the part
of the authority after the last `@` and before the first `:` and is
ASCII lower-cased, the port/userinfo/query/fragment are dropped, and an
empty path becomes `/`. Inputs outside this shape — including
non-hierarchical forms such as `mailto:x` that the real `new URL` does
accept — are treated as parse failures; percent-encoding, dot-segment
removal and IDNA host mapping are not modelled. `none` models the
`new URL` constructor throwing. -/

/-- Scheme characters after the first (`[A-Za-z0-9+.-]`). -/
def isSchemeChar (c : Char) : Bool :=
  c.isAlphanum || c = '+' || c = '-' || c = '.'

/-- Characters that end the authority section. -/
def isAuthEnd (c : Char) : Bool :=
  c = '/' || c = '?' || c = '#'

/-- The components of a parsed hierarchical URL that the cache reads. -/
structure URLParts where
  /-- lower-case scheme, without the trailing `:` of JS `protocol` -/
  scheme : List Char
  /-- lower-case host, without port and userinfo -/
  host : List Char
  /-- path, starting with `/` -/
  path : List Char
deriving DecidableEq, Repr

/-- Parse a hierarchical URL (see the section comment). -/
def parseURL (u : String) : Option URLParts :=
  let cs := u.data
  let schemeRaw := cs.takeWhile isSchemeChar
  let afterScheme := cs.dropWhile isSchemeChar
  match schemeRaw with
  | [] => Option.none
  | c0 :: _ =>
    if !c0.isAlpha then Option.none
    else
      match afterScheme with
      | ':' :: '/' :: '/' :: r =>
        let auth := r.takeWhile (fun c => !isAuthEnd c)
        let rest := r.dropWhile (fun c => !isAuthEnd c)
        let hostPort := (auth.reverse.takeWhile (fun c => c ≠ '@')).reverse
        let host := (hostPort.takeWhile (fun c => c ≠ ':')).map lowerA
        if host.isEmpty then Option.none
        else
          let path := rest.takeWhile (fun c => c ≠ '?' && c ≠ '#')
          some { scheme := schemeRaw.map lowerA
                 host := host
                 path := if path.isEmpty then ['/'] else path }
      | _ => Option.none

/-- `hostname.replace(/^www\./, '')`: drop the four characters of one
leading `www.` when present. -/
def stripWWW (h : List Char) : List Char :=
  if "www.".data.isPrefixOf h then h.drop 4 else h

/-- Render `protocol//hostname + pathname` as `normalizeURL` builds it. -/
def renderURL (scheme host path : List Char) : List Char :=
  scheme ++ (':' :: '/' :: '/' :: (host ++ path))

/-- Drop one trailing slash unless the path is the bare root (the
source's string-level check `normalized.endsWith('/') &&
normalized !== protocol + '//' + hostname + '/'` is equivalent to this
path-level test, since the host never contains `/`). -/
def dropTrailingSlash (path : List Char) : List Char :=
  if path.getLast? = some '/' ∧ path ≠ ['/'] then path.dropLast else path

/-- `DetectionCache.normalizeURL`: strip a leading `www.`, drop query
string and fragment (the parse already discards them), drop a single
trailing slash except at the bare root; an unparseable URL is returned
unchanged (the `catch` branch). -/
def normalizeURL (url : String) : String :=
  match parseURL url with
  | Option.none => url
  | some p =>
    String.mk (renderURL p.scheme (stripWWW p.host) (dropTrailingSlash p.path))

/-- `CACHE_CONFIG.DEFAULT_TTL` (24h in ms). -/
def DEFAULT_TTL : Nat := 24 * 60 * 60 * 1000

/-- `CACHE_CONFIG.TTL_BY_DOMAIN` as a lookup. -/
def ttlByDomain (host : List Char) : Option Nat :=
  if host = "localhost".data then some (5 * 60 * 1000)
  else if host = "127.0.0.1".data then some (5 * 60 * 1000)
  else Option.none

/-- `CACHE_CONFIG.CACHE_EMPTY_RESULTS` (default configuration). -/
def CACHE_EMPTY_RESULTS : Bool := true

/-- `CACHE_CONFIG.CACHE_PATTERN_RESULTS` (default configuration). -/
def CACHE_PATTERN_RESULTS : Bool := true

/-- `CACHE_CONFIG.PATTERN_RESULT_TTL` (default configuration: `null`). -/
def PATTERN_RESULT_TTL : Option Nat := Option.none

/-- `DetectionCache.getTTL`: per-domain override first (a configured
TTL of `0` would be falsy and skipped — none is), then the optional
pattern-result TTL, then the default; unparseable URLs use the default
(the `catch` branch). -/
def getTTL (url : String) (detectionMethod : DMethod) : Nat :=
  match parseURL url with
  | Option.none => DEFAULT_TTL
  | some p =>
    let host := stripWWW p.host
    match ttlByDomain host with
    | some t => t
    | Option.none =>
      match detectionMethod, PATTERN_RESULT_TTL with
      | .pattern, some t => t
      | _, _ => DEFAULT_TTL

/-! ## DetectionCache state model

The LRU store is an association list keyed by the normalized URL, most
recent first; staleness follows `lru-cache` with `updateAgeOnGet`: an
entry inserted (or last read) at `start` with per-entry TTL `ttl` is
live at `now` while `now < start + ttl`. Capacity eviction (max 1000)
is not modelled — it never evicts the entry just inserted, which is all
the claims below touch. The stored payload carries its own `cachedAt`
and `expiresAt` fields, which `get` strips before returning. -/

/-- A stored entry: the payload `CachedDetectionResult` (result plus
`cachedAt`/`expiresAt`) and the store's own TTL clock. -/
structure CacheEntry where
  result : DetectionResult
  cachedAt : Nat
  expiresAt : Nat
  start : Nat
  ttl : Nat
deriving DecidableEq, Repr

/-- Cache state: entries plus hit/miss counters. -/
structure CacheState where
  entries : List (String × CacheEntry)
  hits : Nat
  misses : Nat
deriving DecidableEq, Repr

/-- The empty cache. -/
def CacheState.empty : CacheState := ⟨[], 0, 0⟩

/-- Association-list lookup (first match wins; `set` keeps keys unique). -/
def lookupEntry (key : String) (entries : List (String × CacheEntry)) :
    Option CacheEntry :=
  match entries.find? (fun e => e.1 = key) with
  | some e => some e.2
  | Option.none => Option.none

/-- Remove a key. -/
def removeKey (key : String) (entries : List (String × CacheEntry)) :
    List (String × CacheEntry) :=
  entries.filter (fun e => e.1 ≠ key)

/-- `DetectionCache.get` at time `now`: a live entry is a hit (its age
is refreshed and the payload is returned without `cachedAt`/`expiresAt`);
a stale or missing entry is a miss. -/
def cacheGet (now : Nat) (url : String) (st : CacheState) :
    Option DetectionResult × CacheState :=
  let key := normalizeURL url
  match lookupEntry key st.entries with
  | some e =>
    if now < e.start + e.ttl then
      (some e.result,
       { st with hits := st.hits + 1
                 entries := (key, { e with start := now }) :: removeKey key st.entries })
    else (Option.none, { st with misses := st.misses + 1 })
  | Option.none => (Option.none, { st with misses := st.misses + 1 })

/-- `DetectionCache.set` at time `now`: failed detections are never
stored; `found = false` results are skipped only when
`CACHE_EMPTY_RESULTS` is off; pattern results only when
`CACHE_PATTERN_RESULTS` is off; otherwise insert under the normalized
key with the per-URL TTL. -/
def cacheSet (now : Nat) (url : String) (result : DetectionResult)
    (st : CacheState) : CacheState :=
  if !result.success then st
  else if !result.found && !CACHE_EMPTY_RESULTS then st
  else if result.detectionMethod = .pattern && !CACHE_PATTERN_RESULTS then st
  else
    let key := normalizeURL url
    let ttl := getTTL url result.detectionMethod
    { st with entries :=
        (key, { result := result
                cachedAt := now
                expiresAt := now + ttl
                start := now
                ttl := ttl }) :: removeKey key st.entries }

/-- `DetectionCache.has` at time `now` (a stale entry is not `has`). -/
def cacheHas (now : Nat) (url : String) (st : CacheState) : Bool :=
  match lookupEntry (normalizeURL url) st.entries with
  | some e => now < e.start + e.ttl
  | Option.none => false

/-- `DetectionCache.delete`. -/
def cacheDelete (url : String) (st : CacheState) : Bool × CacheState :=
  let key := normalizeURL url
  match lookupEntry key st.entries with
  | some _ => (true, { st with entries := removeKey key st.entries })
  | Option.none => (false, st)

/-! ## BrowserPool launch model (`browser-pool`)

`getBrowser`'s body is synchronous up to returning a promise, so each
call is one atomic step; launch completion and browser
disconnection/idle-closing are separate steps. The state mirrors the
class fields (`browser && browser.isConnected()` collapses to one flag;
`initPromise` keeps its promise's identity, and is *not* cleared on
successful launch, exactly as in the source). `inFlight` lists the
identities of started but unfinished `chromium.launch` operations
(`nextId` counts every launch ever started), and `waiting` the promise
identity each caller issued during an unfinished launch is awaiting;
`waiting` empties when the launch settles (all awaiters resume). -/

/-- Pool state. -/
structure PoolState where
  browserConnected : Bool
  isInitializing : Bool
  initPromise : Option Nat
  nextId : Nat
  inFlight : List Nat
  waiting : List Nat
deriving DecidableEq, Repr

/-- The pool before first use. -/
def PoolState.init : PoolState := ⟨false, false, Option.none, 0, [], []⟩

/-- Cooperative events against the pool. -/
inductive PoolEvent where
  /-- one `getBrowser` call (from `createContext`) runs its synchronous body -/
  | call
  /-- the launch with identity `i` resolves (the `.then` handler runs) -/
  | finishOk (i : Nat)
  /-- the launch with identity `i` rejects (the `.catch` handler runs) -/
  | finishFail (i : Nat)
  /-- the browser process disconnects (`isConnected()` turns false) -/
  | disconnect
  /-- the idle monitor closes the browser (`closeBrowser`) -/
  | idleClose
deriving DecidableEq, Repr

/-- One step of the pool model, mirroring `getBrowser`'s three branches
and the two `.then`/`.catch` handlers. -/
def poolStep (s : PoolState) : PoolEvent → PoolState
  | .call =>
    if s.browserConnected then s
    else if s.isInitializing ∧ s.initPromise.isSome then
      { s with waiting := s.initPromise.getD 0 :: s.waiting }
    else
      { s with isInitializing := true
               initPromise := some s.nextId
               nextId := s.nextId + 1
               inFlight := s.nextId :: s.inFlight
               waiting := s.nextId :: s.waiting }
  | .finishOk i =>
    if i ∈ s.inFlight then
      { s with browserConnected := true
               isInitializing := false
               inFlight := s.inFlight.filter (fun j => j ≠ i)
               waiting := [] }
    else s
  | .finishFail i =>
    if i ∈ s.inFlight then
      { s with isInitializing := false
               initPromise := Option.none
               inFlight := s.inFlight.filter (fun j => j ≠ i)
               waiting := [] }
    else s
  | .disconnect => { s with browserConnected := false }
  | .idleClose => { s with browserConnected := false }

/-- Run a trace of pool events from a state. -/
def poolRun (s : PoolState) (tr : List PoolEvent) : PoolState :=
  tr.foldl poolStep s

/-! ## `scrapeWebsite` resource-disposition model (`scraper.ts`)

`performScrape` creates a context, then a page, navigates, waits and
extracts; every internal failure is caught there, both handles are
closed, and a failure result is *returned* (never thrown). The only way
`scrapeWebsite`'s own `catch` runs is the 60s total-timeout race —
at which point the local `page`/`context` variables (assigned only
after the awaited race resolves) are still `undefined`, so its
`cleanupResources(page, context)` closes nothing, and `performScrape`
keeps running detached.

A scenario fixes which steps would succeed and whether the total
timeout fires first; the model returns the observable disposition of
the call: the returned result's `success`, whether live handles were
returned to the caller, which handles were ever created, whether the
call (including the detached continuation) ever closes them, and
whether that closing happened before `scrapeWebsite` returned. -/

/-- Which steps of one `scrapeWebsite` call would succeed. -/
structure ScrapeScenario where
  /-- `browserPool.createContext` succeeds -/
  createContextOk : Bool
  /-- `context.newPage` succeeds -/
  newPageOk : Bool
  /-- navigation, readiness wait and content extraction all succeed -/
  contentOk : Bool
  /-- the 60s `executeWithTimeout` race fires before `performScrape`
  settles -/
  totalTimeoutFires : Bool
deriving DecidableEq, Repr

/-- Observable disposition of one `scrapeWebsite` call. -/
structure ScrapeExec where
  /-- `success` of the returned `ScrapeResult` -/
  success : Bool
  /-- the returned result carries the live page and context -/
  returnedLive : Bool
  ctxCreated : Bool
  pageCreated : Bool
  /-- the call (or its detached continuation) ever closes the context -/
  ctxEverClosed : Bool
  /-- the call (or its detached continuation) ever closes the page -/
  pageEverClosed : Bool
  /-- every created handle was closed before `scrapeWebsite` returned -/
  closedBeforeReturn : Bool
deriving DecidableEq, Repr

/-- The disposition model of `scrapeWebsite` (see section comment). -/
def scrapeWebsiteModel (sc : ScrapeScenario) : ScrapeExec :=
  if sc.totalTimeoutFires then
    -- Timeout path: scrapeWebsite's catch sees undefined locals, cleans
    -- nothing, returns a failure now; performScrape continues detached
    -- and cleans up only if it fails internally later.
    { success := false
      returnedLive := false
      ctxCreated := sc.createContextOk
      pageCreated := sc.createContextOk && sc.newPageOk
      ctxEverClosed := sc.createContextOk && !(sc.newPageOk && sc.contentOk)
      pageEverClosed := sc.createContextOk && sc.newPageOk && !sc.contentOk
      closedBeforeReturn := false }
  else if !sc.createContextOk then
    -- performScrape's catch with nothing created.
    { success := false, returnedLive := false
      ctxCreated := false, pageCreated := false
      ctxEverClosed := false, pageEverClosed := false
      closedBeforeReturn := true }
  else if !sc.newPageOk then
    -- performScrape's catch closes the context before returning.
    { success := false, returnedLive := false
      ctxCreated := true, pageCreated := false
      ctxEverClosed := true, pageEverClosed := false
      closedBeforeReturn := true }
  else if !sc.contentOk then
    -- performScrape's catch closes page and context before returning.
    { success := false, returnedLive := false
      ctxCreated := true, pageCreated := true
      ctxEverClosed := true, pageEverClosed := true
      closedBeforeReturn := true }
  else
    -- Success: page and context are returned live, deliberately open.
    { success := true, returnedLive := true
      ctxCreated := true, pageCreated := true
      ctxEverClosed := false, pageEverClosed := false
      closedBeforeReturn := false }

/-- A handle is leaked by a call when it was created, was not handed
live to the caller, and the call never closes it. -/
def leaksHandle (e : ScrapeExec) : Bool :=
  (e.ctxCreated && !e.returnedLive && !e.ctxEverClosed) ||
  (e.pageCreated && !e.returnedLive && !e.pageEverClosed)

/-! ## Auxiliary predicates used by the theorems -/

/-- A well-formed tag name: non-empty, all `[\w-]` characters (every
name the tag scanner can emit has this shape). -/
def wfName (nm : List Char) : Bool :=
  !nm.isEmpty && nm.all isWordChar

/-- Scanner modes whose carried name data is well-formed. -/
def wfMode : TagMode → Bool
  | .name _ acc => !acc.isEmpty && acc.all isWordChar
  | .attrs _ nm _ => !nm.isEmpty && nm.all isWordChar
  | _ => true

/-- Well-formedness of parsed URL components, as established by
`parseURL` and preserved by `normalizeURL`'s rewriting: a non-empty
lower-case scheme starting with a letter, a non-empty lower-case host
free of delimiters, and a path starting with `/` and free of `?`/`#`. -/
def wfURL (p : URLParts) : Bool :=
  !p.scheme.isEmpty &&
  (match p.scheme with
   | c :: _ => c.isAlpha
   | [] => false) &&
  p.scheme.all isSchemeChar &&
  p.scheme.all (fun c => lowerA c = c) &&
  !p.host.isEmpty &&
  p.host.all (fun c => !isAuthEnd c && c ≠ ':' && c ≠ '@') &&
  p.host.all (fun c => lowerA c = c) &&
  (match p.path with
   | '/' :: _ => true
   | _ => false) &&
  p.path.all (fun c => c ≠ '?' && c ≠ '#')

/-- The pool invariant behind launch de-duplication: at most one launch
is ever in flight, the initializing flag tracks exactly the in-flight
launch, the shared promise is that launch's promise, and every caller
waiting is waiting on that single launch. -/
def PoolInv (s : PoolState) : Prop :=
  s.inFlight.length ≤ 1 ∧
  (s.isInitializing = true ↔ s.inFlight ≠ []) ∧
  (∀ p, s.inFlight = [p] → s.initPromise = some p) ∧
  (∀ w ∈ s.waiting, s.inFlight = [w])

/-- The oracle of a page on which no selector resolves. -/
def oracleNone : PageOracle := fun _ => Option.none

/-- A concrete over-long snippet used to exercise the truncation branch:
1493 filler characters followed by `<div><p>hi</p>` (total length 1507);
the 1500-character cut lands inside `<p`, the backtrack drops the
partial tag, and `</div>` must be appended. -/
def longSnippetInput : String :=
  String.mk (List.replicate 1493 'x' ++ "<div><p>hi</p>".data)

/-- Side condition under which `normalizeURL` is a fixed point of
itself: after one `www.`-strip the host bears no further `www.` prefix,
and one trailing-slash drop suffices. Unparseable inputs satisfy it
vacuously (they are returned unchanged). -/
def stableKey (u : String) : Bool :=
  match parseURL u with
  | Option.none => true
  | some p =>
      !("www.".data.isPrefixOf (stripWWW p.host)) &&
      (dropTrailingSlash (dropTrailingSlash p.path) == dropTrailingSlash p.path)

/-! ## Theorems

### Tag-scan lemmas (towards the `truncateSnippet` claim) -/

/-- The tag scan distributes over concatenation through `finalMode`. -/
theorem runTokens_append (xs : List Char) : ∀ (m : TagMode) (ys : List Char),
    runTokens m (xs ++ ys) = runTokens m xs ++ runTokens (finalMode m xs) ys := by
  induction xs with
  | nil => intro m ys; simp [runTokens, finalMode]
  | cons c rest ih =>
    intro m ys
    have hfm : finalMode m (c :: rest) = finalMode (stepMode m c).2 rest := by
      simp [finalMode]
    rw [List.cons_append, runTokens, runTokens, hfm]
    cases h : stepMode m c with
    | mk tok m' =>
      cases tok with
      | none => simpa using ih m' ys
      | some t => simpa using ih m' ys

/-- Every mode returns to `out` on a `>`. -/
theorem stepMode_gt (m : TagMode) : (stepMode m '>').2 = .out := by
  have hw : isWordChar '>' = false := by decide
  have h1 : ('>' : Char) ≠ '<' := by decide
  have h2 : ('>' : Char) ≠ '/' := by decide
  cases m <;> simp [stepMode, hw, h1, h2]

/-- If every `<` of a text is followed by a later `>`, scanning it from
any mode that (if mid-tag) still has a `>` ahead ends outside a tag. -/
theorem finalMode_out (cs : List Char) : ∀ m : TagMode,
    closedTags cs = true → (m = .out ∨ cs.contains '>') → finalMode m cs = .out := by
  induction cs with
  | nil =>
    intro m hc hm
    rcases hm with h | h
    · simp [finalMode, h]
    · simp [List.contains] at h
  | cons c rest ih =>
    intro m hc hm
    have hc' : closedTags rest = true := by
      have := hc
      unfold closedTags at this
      exact (Bool.and_eq_true_iff.mp this).2
    have hfm : finalMode m (c :: rest) = finalMode (stepMode m c).2 rest := by
      simp [finalMode]
    rw [hfm]
    by_cases hgt : c = '>'
    · subst hgt
      exact ih _ hc' (Or.inl (stepMode_gt m))
    · apply ih _ hc'
      rcases hm with h | h
      · subst h
        by_cases hlt : c = '<'
        · subst hlt
          right
          have := hc
          unfold closedTags at this
          simpa using (Bool.and_eq_true_iff.mp this).1
        · left
          simp [stepMode, hlt]
      · right
        rw [List.contains_cons, Bool.or_eq_true] at h
        rcases h with h' | h'
        · exact absurd (beq_iff_eq.mp h').symm hgt
        · exact h'

/-- Stepping preserves mode well-formedness, and every emitted token's
name is well-formed. -/
theorem stepMode_wf (m : TagMode) (c : Char) (hm : wfMode m = true) :
    wfMode (stepMode m c).2 = true ∧
      ∀ tok, (stepMode m c).1 = some tok → wfName tok.name = true := by
  cases m with
  | out =>
    constructor
    · by_cases h : c = '<' <;> simp [stepMode, wfMode, h]
    · intro tok h
      by_cases h' : c = '<' <;> simp [stepMode, h'] at h
  | lt =>
    constructor
    · simp only [stepMode]
      split_ifs <;> simp_all [wfMode, List.all]
    · intro tok h
      simp only [stepMode] at h
      split_ifs at h <;> simp at h
  | slash =>
    constructor
    · simp only [stepMode]
      split_ifs <;> simp_all [wfMode, List.all]
    · intro tok h
      simp only [stepMode] at h
      split_ifs at h <;> simp at h
  | name closing acc =>
    have hm' : acc.isEmpty = false ∧ acc.all isWordChar = true := by
      simpa [wfMode, Bool.and_eq_true] using hm
    have hrev : acc.reverse.isEmpty = false := by
      rcases acc with _ | ⟨a, as⟩
      · simp at hm'
      · simp
    constructor
    · simp only [stepMode]
      split_ifs <;> simp_all [wfMode, List.all_cons, List.all_reverse]
    · intro tok h
      simp only [stepMode] at h
      split_ifs at h <;> simp at h
      subst h
      simp [wfName, List.all_reverse, hm'.2, hrev]
  | attrs closing nm prev =>
    have hm' : nm.isEmpty = false ∧ nm.all isWordChar = true := by
      simpa [wfMode, Bool.and_eq_true] using hm
    constructor
    · simp only [stepMode]
      split_ifs <;> simp_all [wfMode]
    · intro tok h
      simp only [stepMode] at h
      split_ifs at h <;> simp at h
      subst h
      simp [wfName, hm'.1, hm'.2]

/-- Every token the scan emits from a well-formed mode has a well-formed
name. -/
theorem runTokens_wf (cs : List Char) : ∀ m, wfMode m = true →
    ∀ t ∈ runTokens m cs, wfName t.name = true := by
  induction cs with
  | nil => intro m _ t ht; simp [runTokens] at ht
  | cons c rest ih =>
    intro m hm t ht
    obtain ⟨hnext, hemit⟩ := stepMode_wf m c hm
    rw [runTokens] at ht
    cases hs : stepMode m c with
    | mk tok m' =>
      rw [hs] at ht hnext hemit
      cases tok with
      | none => exact ih m' hnext t ht
      | some t0 =>
        simp only [List.mem_cons] at ht
        rcases ht with h | h
        · exact h ▸ hemit t0 rfl
        · exact ih m' hnext t h

/-- A walk step introduces no name beyond the token's and the stack's. -/
theorem mem_walkStep (stack : List (List Char)) (t : TagTok) (nm : List Char)
    (h : nm ∈ walkStep stack t) : nm = t.name ∨ nm ∈ stack := by
  unfold walkStep at h
  split_ifs at h with h1 h2 h3
  · exact Or.inr h
  · cases stack with
    | nil => simp at h
    | cons top rest =>
      have h' : nm ∈ (if top = t.name then rest else top :: rest) := h
      by_cases he : top = t.name
      · rw [if_pos he] at h'
        exact Or.inr (List.mem_cons_of_mem _ h')
      · rw [if_neg he] at h'
        exact Or.inr h'
  · exact Or.inr h
  · rcases List.mem_cons.mp h with h' | h'
    · exact Or.inl h'
    · exact Or.inr h'

/-- Folding well-formed tokens over a stack of well-formed names keeps
every stack name well-formed. -/
theorem foldl_walkStep_wf (toks : List TagTok) : ∀ stack,
    (∀ t ∈ toks, wfName t.name = true) → (∀ nm ∈ stack, wfName nm = true) →
    ∀ nm ∈ List.foldl walkStep stack toks, wfName nm = true := by
  induction toks with
  | nil => intro stack _ hs nm h; exact hs nm h
  | cons t ts ih =>
    intro stack ht hs nm h
    rw [List.foldl_cons] at h
    refine ih (walkStep stack t) (fun x hx => ht x (List.mem_cons_of_mem _ hx)) ?_ nm h
    intro x hx
    rcases mem_walkStep stack t x hx with h' | h'
    · exact h' ▸ ht t (List.mem_cons_self _ _)
    · exact hs x h'

/-- Scanning a word-character run followed by `>` emits one token whose
name extends the accumulator. -/
theorem runTokens_name_run (nm : List Char) : ∀ (acc tail : List Char) (closing : Bool),
    nm.all isWordChar = true →
    runTokens (.name closing acc) (nm ++ '>' :: tail) =
      ⟨closing, acc.reverse ++ nm, false⟩ :: runTokens .out tail := by
  induction nm with
  | nil =>
    intro acc tail closing _
    have hw : isWordChar '>' = false := by decide
    simp [runTokens, stepMode, hw]
  | cons d rest ih =>
    intro acc tail closing hall
    rw [List.all_cons, Bool.and_eq_true] at hall
    rw [List.cons_append, runTokens]
    simp only [stepMode, hall.1, if_pos]
    rw [ih (d :: acc) tail closing hall.2]
    simp [List.reverse_cons, List.append_assoc]

/-- Scanning past an initial `<`. -/
theorem runTokens_out_lt (xs : List Char) :
    runTokens .out ('<' :: xs) = runTokens .lt xs := rfl

/-- Scanning past the `/` of a closing tag. -/
theorem runTokens_lt_slash (xs : List Char) :
    runTokens .lt ('/' :: xs) = runTokens .slash xs := rfl

/-- Scanning past the first character of a closing tag's name. -/
theorem runTokens_slash_word (c : Char) (xs : List Char) (hc : isWordChar c = true) :
    runTokens .slash (c :: xs) = runTokens (.name true [c]) xs := by
  have hcne : c ≠ '<' := fun he => by rw [he] at hc; exact absurd hc (by decide)
  rw [runTokens]
  simp only [stepMode, if_neg hcne, hc, if_pos]

/-- The closing tags rendered from a stack of well-formed names scan
back to exactly the corresponding closing tokens. -/
theorem runTokens_closers (stack : List (List Char)) :
    (∀ nm ∈ stack, wfName nm = true) →
    runTokens .out (closersChars stack) =
      stack.map (fun nm => ⟨true, nm, false⟩) := by
  induction stack with
  | nil => intro _; simp [closersChars, runTokens]
  | cons nm rest ih =>
    intro h
    have hnm : wfName nm = true := h nm (List.mem_cons_self _ _)
    rcases hc : nm with _ | ⟨c, nmt⟩
    · rw [hc] at hnm; simp [wfName] at hnm
    · rw [hc] at hnm
      have h2 : isWordChar c = true ∧ ∀ x ∈ nmt, isWordChar x = true := by
        simpa [wfName, List.all_cons, List.all_eq_true] using hnm
      have hct : nmt.all isWordChar = true := List.all_eq_true.mpr h2.2
      have hshape : closersChars ((c :: nmt) :: rest) =
          '<' :: '/' :: ((c :: nmt) ++ '>' :: closersChars rest) := by
        simp [closersChars]
      rw [hshape, runTokens_out_lt, runTokens_lt_slash, List.cons_append,
        runTokens_slash_word c _ h2.1, runTokens_name_run nmt [c] _ true hct,
        ih (fun x hx => h x (List.mem_cons_of_mem _ hx))]
      simp

/-- Folding the closing tokens of a stack over that stack empties it. -/
theorem foldl_walkStep_closers (stack : List (List Char)) :
    (∀ nm ∈ stack, wfName nm = true) →
    List.foldl walkStep stack (stack.map (fun nm => ⟨true, nm, false⟩)) = [] := by
  induction stack with
  | nil => intro _; simp
  | cons top rest ih =>
    intro h
    have htop : wfName top = true := h top (List.mem_cons_self _ _)
    have hne : top.isEmpty = false := by
      rcases top with _ | _
      · simp [wfName] at htop
      · simp
    rw [List.map_cons, List.foldl_cons]
    have hstep : walkStep (top :: rest) ⟨true, top, false⟩ = rest := by
      unfold walkStep
      simp [hne]
    rw [hstep]
    exact ih (fun x hx => h x (List.mem_cons_of_mem _ hx))

/-- The central truncation fact: appending the closers of the walk's
remaining stack to a text whose every `<` is followed by a `>` yields a
text whose walk leaves no open tag. -/
theorem tagWalk_closed (t : List Char) (hct : closedTags t = true) :
    tagWalk (t ++ closersChars (tagWalk t)) = [] := by
  have hwf : ∀ nm ∈ tagWalk t, wfName nm = true := by
    apply foldl_walkStep_wf
    · exact runTokens_wf t .out (by simp [wfMode])
    · simp
  unfold tagWalk tagTokens
  rw [runTokens_append, finalMode_out t .out hct (Or.inl rfl)]
  rw [List.foldl_append]
  have h1 : List.foldl walkStep [] (runTokens .out t) = tagWalk t := rfl
  rw [h1, runTokens_closers _ hwf]
  exact foldl_walkStep_closers _ hwf

/-- The backtrack never lengthens the text. -/
theorem dropPartialTag_length_le (t : List Char) :
    (dropPartialTag t).length ≤ t.length := by
  unfold dropPartialTag
  split
  · next r heq =>
    have hsub : (t.reverse.dropWhile (fun c => c ≠ '<' && c ≠ '>')).Sublist t.reverse :=
      List.dropWhile_sublist _
    rw [heq] at hsub
    have := hsub.length_le
    simp at this ⊢
    omega
  · exact le_refl _

/-- Claim C5 — counterexample. The claim asserts that for *every* HTML
string input the output parses as balanced-tag HTML (every opened tag
closed, per the tag-stack walk). An input within the 1500-character cap
is returned verbatim, so `"<div>"` comes back with its `div` still
open: the walk of the output is not empty. -/
theorem truncateSnippet_unbalanced_cex :
    truncateSnippet "<div>" = "<div>" ∧
      tagWalk ((truncateSnippet "<div>").data) ≠ [] := by
  constructor
  · rfl
  · decide

/-- Claim C5 (amended): `truncateSnippet` returns inputs within the
1500-character cap verbatim (so only as balanced as they came); its
output length never exceeds the cap plus the length of the appended
closing tags; and for an over-long input whose backtracked 1500-character
prefix has every `<` followed by a later `>`, the output's tag-stack
walk ends with no open tag (the appended closers close everything the
prefix opened). -/
theorem truncateSnippet_amended (snippet : String) :
    (snippet.length ≤ MAX_SNIPPET → truncateSnippet snippet = snippet) ∧
    (truncateSnippet snippet).length ≤ MAX_SNIPPET + closersOverhead snippet ∧
    (MAX_SNIPPET < snippet.length →
      closedTags (dropPartialTag (snippet.data.take MAX_SNIPPET)) = true →
      tagWalk ((truncateSnippet snippet).data) = []) := by
  refine ⟨fun h => by simp [truncateSnippet, h], ?_, ?_⟩
  · by_cases h : snippet.length ≤ MAX_SNIPPET
    · simp [truncateSnippet, closersOverhead, h]
    · simp only [truncateSnippet, closersOverhead, if_neg h]
      have hmk : ∀ a b : List Char, (String.mk (a ++ b)).length = a.length + b.length := by
        intro a b
        simp [String.length]
      rw [hmk]
      have ht : (dropPartialTag (snippet.data.take MAX_SNIPPET)).length ≤ MAX_SNIPPET := by
        refine le_trans (dropPartialTag_length_le _) ?_
        simpa using (List.length_take MAX_SNIPPET snippet.data) ▸ Nat.min_le_left _ _
      omega
  · intro h1 h2
    simp only [truncateSnippet, if_neg (not_le.mpr h1)]
    exact tagWalk_closed _ h2

/-- Witness for the amended C5 theorem at `longSnippetInput`. -/
theorem truncateSnippet_amended_witness :
    MAX_SNIPPET < longSnippetInput.length ∧
      closedTags (dropPartialTag (longSnippetInput.data.take MAX_SNIPPET)) = true ∧
      tagWalk ((truncateSnippet longSnippetInput).data) = [] :=
  ⟨by decide, by decide,
    (truncateSnippet_amended longSnippetInput).2.2 (by decide) (by decide)⟩

/-! ### Span-extraction lemmas (towards the `parseAIResponse` claim) -/

/-- `takeWhile` stops exactly at the first failing element. -/
theorem takeWhile_append_done {α} (p : α → Bool) (l1 : List α) (c : α) (l2 : List α)
    (h1 : l1.all p = true) (h2 : p c = false) :
    (l1 ++ c :: l2).takeWhile p = l1 := by
  induction l1 with
  | nil => simp [List.takeWhile_cons, h2]
  | cons a as ih =>
    rw [List.all_cons, Bool.and_eq_true] at h1
    simp [List.takeWhile_cons, h1.1, ih h1.2]

/-- `dropWhile` drops exactly up to the first failing element. -/
theorem dropWhile_append_done {α} (p : α → Bool) (l1 : List α) (c : α) (l2 : List α)
    (h1 : l1.all p = true) (h2 : p c = false) :
    (l1 ++ c :: l2).dropWhile p = c :: l2 := by
  induction l1 with
  | nil => simp [List.dropWhile_cons, h2]
  | cons a as ih =>
    rw [List.all_cons, Bool.and_eq_true] at h1
    simp [List.dropWhile_cons, h1.1, ih h1.2]

/-- `dropWhile` over an all-satisfying list drops everything. -/
theorem dropWhile_all {α} (p : α → Bool) (l : List α) (h : l.all p = true) :
    l.dropWhile p = [] := by
  induction l with
  | nil => simp
  | cons a as ih =>
    rw [List.all_cons, Bool.and_eq_true] at h
    simp [List.dropWhile_cons, h.1, ih h.2]

/-- `takeWhile` over an all-satisfying list keeps everything. -/
theorem takeWhile_all {α} (p : α → Bool) (l : List α) (h : l.all p = true) :
    l.takeWhile p = l := by
  induction l with
  | nil => simp
  | cons a as ih =>
    rw [List.all_cons, Bool.and_eq_true] at h
    simp [List.takeWhile_cons, h.1, ih h.2]

/-- Helper: `extractSpan` once the first `{` is located. -/
theorem extractSpan_cons (cs rest : List Char)
    (h : cs.dropWhile (fun c => c ≠ '{') = '{' :: rest) :
    extractSpan cs =
      match rest.reverse.dropWhile (fun c => c ≠ '}') with
      | [] => Option.none
      | r => some ('{' :: r.reverse) := by
  unfold extractSpan
  rw [h]
  rfl

/-- The greedy `/\{[\s\S]*\}/` span of `prose ++ block ++ prose` is the
block, provided the leading prose has no `{` and the trailing prose no
`}`, and the block runs from a `{` to a `}`. -/
theorem extractSpan_pre_body_post (pre body post : List Char)
    (hpre : pre.all (fun c => c ≠ '{') = true)
    (hpost : post.all (fun c => c ≠ '}') = true)
    (hh : body.head? = some '{') (hl : body.getLast? = some '}') :
    extractSpan (pre ++ body ++ post) = some body := by
  obtain ⟨tail, rfl⟩ : ∃ t, body = '{' :: t := by
    cases body with
    | nil => simp at hh
    | cons b bs =>
      simp only [List.head?_cons, Option.some.injEq] at hh
      exact ⟨bs, by rw [hh]⟩
  have hrev : ('{' :: tail).reverse.head? = some '}' := by
    rw [List.head?_reverse]; exact hl
  obtain ⟨q, hq⟩ : ∃ q, tail.reverse = '}' :: q := by
    cases ht : tail.reverse with
    | nil =>
      have : tail = [] := by simpa using congrArg List.reverse ht
      subst this
      simp at hrev
    | cons d q =>
      rw [List.reverse_cons, ht] at hrev
      simp at hrev
      exact ⟨q, by rw [hrev]⟩
  have hdrop : (pre ++ ('{' :: tail) ++ post).dropWhile (fun c => c ≠ '{') =
      '{' :: (tail ++ post) := by
    have hassoc : pre ++ ('{' :: tail) ++ post = pre ++ '{' :: (tail ++ post) := by
      simp
    rw [hassoc]
    exact dropWhile_append_done _ pre '{' (tail ++ post) hpre (by decide)
  have hrev2 : (tail ++ post).reverse.dropWhile (fun c => c ≠ '}') = '}' :: q := by
    rw [List.reverse_append, hq]
    exact dropWhile_append_done _ post.reverse '}' q
      (by rw [List.all_reverse]; exact hpost) (by decide)
  have htail : ('}' :: q).reverse = tail := by
    rw [← hq, List.reverse_reverse]
  rw [extractSpan_cons (pre ++ ('{' :: tail) ++ post) (tail ++ post) hdrop, hrev2]
  show some ('{' :: ('}' :: q).reverse) = some ('{' :: tail)
  rw [htail]

/-- Claim C9 — counterexample. The claim says the *first balanced*
`{...}` block is extracted; the regex `/\{[\s\S]*\}/` actually spans
greedily from the first `{` to the last `}`. On a response holding a
valid JSON object followed by prose and a second object, the code's
span is unparseable and `parseAIResponse` throws, while the
spec-described first-balanced-block extraction parses successfully. -/
theorem parseAIResponse_greedy_span_cex :
    parseAIResponse "\x7b\"found\": true, \"components\": []\x7d and also \x7b\"x\": 1\x7d" =
      Option.none ∧
    parseAIResponseSpec "\x7b\"found\": true, \"components\": []\x7d and also \x7b\"x\": 1\x7d" =
      some ⟨true, []⟩ :=
  ⟨rfl, rfl⟩

/-- Claim C9 (amended): `parseAIResponse` extracts the span from the
first `{` to the last `}` of the raw text (greedy, tolerating prose
strictly outside that span), strips trailing commas and comment-like
sequences, and parses the result as JSON; a text with no such span, or
an unparseable cleaned span, throws. Part (1): on `prose ++ block ++
prose` with no `{` before and no `}` after, the result is exactly the
processed block. Part (2): a text without `{` throws. Part (3): a
realistic response with surrounding prose, a line comment and trailing
commas parses to its cleaned JSON. -/
theorem parseAIResponse_amended :
    (∀ pre body post : List Char,
      pre.all (fun c => c ≠ '{') = true →
      post.all (fun c => c ≠ '}') = true →
      body.head? = some '{' →
      body.getLast? = some '}' →
      parseAIResponse (String.mk (pre ++ body ++ post)) = processSpan body) ∧
    (∀ txt : String, txt.data.all (fun c => c ≠ '{') = true →
      parseAIResponse txt = Option.none) ∧
    parseAIResponse "Here is the result:\n\x7b\n  \"found\": true, // detected\n  \"components\": [\x7b\"type\": \"oauth\", \"details\": \x7b\"providers\": [\"google\"],\x7d,\x7d],\n\x7d\nDone." =
      some ⟨true, [.obj [("type".data, .str "oauth".data),
        ("details".data, .obj [("providers".data, .arr [.str "google".data])])]]⟩ := by
  refine ⟨?_, ?_, by rfl⟩
  · intro pre body post hpre hpost hh hl
    unfold parseAIResponse
    rw [show (String.mk (pre ++ body ++ post)).data = pre ++ body ++ post from rfl]
    rw [extractSpan_pre_body_post pre body post hpre hpost hh hl]
  · intro txt h
    unfold parseAIResponse extractSpan
    rw [dropWhile_all _ _ h]

/-- Witness for the amended C9 theorem: prose before and after one JSON
block. -/
theorem parseAIResponse_amended_witness :
    ("AI says: ".data.all (fun c => c ≠ '{') = true) ∧
    (" end".data.all (fun c => c ≠ '}') = true) ∧
    parseAIResponse (String.mk ("AI says: ".data ++
        "\x7b\"found\": false, \"components\": []\x7d".data ++ " end".data)) =
      processSpan "\x7b\"found\": false, \"components\": []\x7d".data :=
  ⟨by decide, by decide,
    parseAIResponse_amended.1 "AI says: ".data
      "\x7b\"found\": false, \"components\": []\x7d".data " end".data
      (by decide) (by decide) (by decide) (by decide)⟩

/-! ### Detector claim theorems -/

/-- `optMap` preserves length on success. -/
theorem optMap_length {α β} (f : α → Option β) (l : List α) :
    ∀ r : List β, optMap f l = some r → r.length = l.length := by
  induction l with
  | nil => intro r h; simp [optMap] at h; subst h; rfl
  | cons a as ih =>
    intro r h
    rw [optMap] at h
    cases hfa : f a with
    | none => rw [hfa] at h; simp at h
    | some b =>
      cases hrec : optMap f as with
      | none => rw [hfa, hrec] at h; simp at h
      | some bs =>
        rw [hfa, hrec] at h
        simp only [Option.some.injEq] at h
        subst h
        simp [ih bs hrec]

/-- Snippet extraction yields one output component per input component. -/
theorem extractSnippets_length (o : PageOracle) (timedOut : Bool)
    (comps : List JVal) (r : List AuthComponent)
    (h : extractSnippetsWithTimeout o timedOut comps = some r) :
    r.length = comps.length := by
  unfold extractSnippetsWithTimeout at h
  split_ifs at h
  · simp only [Option.some.injEq] at h
    subst h
    simp
  · exact optMap_length _ _ r h

/-- Claim C1 — counterexample. An AI response of
`{"found": true, "components": []}` is valid JSON and parses; the AI
path copies `found` verbatim and keeps zero components, so the produced
result has `found = true` with an empty component list, violating
`found == (len(components) > 0)`. -/
theorem detection_found_invariant_cex :
    (detectWithAI oracleNone "https://example.com/login"
        "\x7b\"found\": true, \"components\": []\x7d" false).map
      (fun r => (r.success, r.found, r.components)) = some (true, true, []) := rfl

/-- Claim C1 (amended): on the pattern path the invariant holds —
`found` is exactly component-list non-emptiness and `success` is always
true (so `success=false` implies an empty list vacuously). On the AI
path `success` is always true and there is one output component per
AI-proposed component, but `found` is copied verbatim from the parsed
AI response and holds the invariant only when the AI response does. -/
theorem detection_invariant_amended :
    (∀ (o : PageOracle) (url : String),
      (detectWithPatterns o url).success = true ∧
      (detectWithPatterns o url).found = !(detectWithPatterns o url).components.isEmpty) ∧
    (∀ (o : PageOracle) (url txt : String) (timedOut : Bool) (r : DetectionResult),
      detectWithAI o url txt timedOut = some r →
      r.success = true ∧ r.detectionMethod = .ai ∧
      ∃ ai, parseAIResponse txt = some ai ∧ r.found = ai.found ∧
        r.components.length = ai.components.length) := by
  constructor
  · intro o url
    exact ⟨rfl, rfl⟩
  · intro o url txt timedOut r h
    unfold detectWithAI at h
    cases hp : parseAIResponse txt with
    | none => rw [hp] at h; simp at h
    | some ai =>
      rw [hp] at h
      have h' : (match extractSnippetsWithTimeout o timedOut ai.components with
          | Option.none => (Option.none : Option DetectionResult)
          | some comps =>
            some (DetectionResult.mk true url ai.found comps .ai Option.none)) = some r := h
      cases he : extractSnippetsWithTimeout o timedOut ai.components with
      | none => rw [he] at h'; simp at h'
      | some comps =>
        rw [he] at h'
        simp only [Option.some.injEq] at h'
        subst h'
        exact ⟨rfl, rfl, ai, rfl, rfl, extractSnippets_length o timedOut ai.components comps he⟩

/-- Witness for the amended C1 theorem: the pattern half at a concrete
oracle, and the AI half at the counterexample response. -/
theorem detection_invariant_amended_witness :
    ((detectWithPatterns oracleNone "https://example.com").success = true ∧
      (detectWithPatterns oracleNone "https://example.com").found =
        !(detectWithPatterns oracleNone "https://example.com").components.isEmpty) ∧
    ({ success := true, url := "https://example.com/login", found := true,
       components := [], detectionMethod := .ai,
       error := Option.none : DetectionResult }.success = true ∧
      ({ success := true, url := "https://example.com/login", found := true,
         components := [], detectionMethod := .ai,
         error := Option.none : DetectionResult }).detectionMethod = .ai ∧
      ∃ ai, parseAIResponse "\x7b\"found\": true, \"components\": []\x7d" = some ai ∧
        (true : Bool) = ai.found ∧
        ([] : List AuthComponent).length = ai.components.length) :=
  ⟨detection_invariant_amended.1 oracleNone "https://example.com",
   detection_invariant_amended.2 oracleNone "https://example.com/login"
     "\x7b\"found\": true, \"components\": []\x7d" false
     { success := true, url := "https://example.com/login", found := true,
       components := [], detectionMethod := .ai, error := Option.none } rfl⟩

/-- Claim C3: with no (truthy) AI credential, a failed AI transport, or
a `detectWithAI` that throws, `detectAuthentication` returns exactly the
pattern path's result, whose `detectionMethod` is `pattern`; being a
total function, the model never lets an exception escape. -/
theorem detectAuthentication_fallback_to_pattern :
    ∀ (apiKey aiTransport : Option String) (timedOut : Bool) (o : PageOracle) (url : String),
      (apiKeyTruthy apiKey = false ∨ aiTransport = Option.none ∨
        (∀ txt, aiTransport = some txt → detectWithAI o url txt timedOut = Option.none)) →
      detectAuthentication apiKey aiTransport timedOut o url = detectWithPatterns o url ∧
      (detectAuthentication apiKey aiTransport timedOut o url).detectionMethod = .pattern := by
  intro apiKey aiT t o url h
  have hmain : detectAuthentication apiKey aiT t o url = detectWithPatterns o url := by
    unfold detectAuthentication
    rcases h with h | h | h
    · simp [h]
    · subst h
      by_cases hk : apiKeyTruthy apiKey = true <;> simp [hk]
    · by_cases hk : apiKeyTruthy apiKey = true
      · cases aiT with
        | none => simp [hk]
        | some txt => simp [hk, h txt rfl]
      · simp [hk]
  exact ⟨hmain, by rw [hmain]; rfl⟩

/-- Witness for C3: a configured key whose transport call failed. -/
theorem detectAuthentication_fallback_to_pattern_witness :
    detectAuthentication (some "key") Option.none false oracleNone "https://example.com" =
      detectWithPatterns oracleNone "https://example.com" ∧
    (detectAuthentication (some "key") Option.none false oracleNone
        "https://example.com").detectionMethod = .pattern :=
  detectAuthentication_fallback_to_pattern (some "key") Option.none false oracleNone
    "https://example.com" (Or.inr (Or.inl rfl))

/-- The traditional pattern check only ever builds a `traditional`
component. -/
theorem detectTraditionalPattern_type (o : PageOracle) (c : AuthComponent)
    (h : detectTraditionalPattern o = some c) : c.type = "traditional" := by
  cases ho : extractWithSelector o "form:has(input[type=\"password\"])" with
  | none => simp [detectTraditionalPattern, ho] at h
  | some s =>
    simp only [detectTraditionalPattern, ho] at h
    split_ifs at h <;>
      first
        | (simp only [Option.some.injEq] at h; rw [← h])
        | simp at h

/-- The OAuth pattern check only ever builds an `oauth` component. -/
theorem detectOAuthPattern_type (o : PageOracle) (c : AuthComponent)
    (h : detectOAuthPattern o = some c) : c.type = "oauth" := by
  simp only [detectOAuthPattern] at h
  split_ifs at h <;>
    first
      | (simp only [Option.some.injEq] at h; rw [← h])
      | simp at h

/-- Claim C8: the pattern path produces zero, one or two components,
whose types are only `traditional` and `oauth` (at most one of each),
and never a `passwordless` component. -/
theorem detectWithPatterns_component_shape :
    ∀ (o : PageOracle) (url : String),
      (detectWithPatterns o url).components.length ≤ 2 ∧
      (∀ c ∈ (detectWithPatterns o url).components,
        c.type = "traditional" ∨ c.type = "oauth") ∧
      ((detectWithPatterns o url).components.filter
        (fun c => c.type = "traditional")).length ≤ 1 ∧
      ((detectWithPatterns o url).components.filter
        (fun c => c.type = "oauth")).length ≤ 1 ∧
      (∀ c ∈ (detectWithPatterns o url).components, c.type ≠ "passwordless") := by
  intro o url
  have hne1 : ("traditional" : String) ≠ "oauth" := by decide
  have hne2 : ("traditional" : String) ≠ "passwordless" := by decide
  have hne3 : ("oauth" : String) ≠ "passwordless" := by decide
  have hcomp : (detectWithPatterns o url).components =
      (match detectTraditionalPattern o with
       | some c => [c]
       | Option.none => []) ++
      (match detectOAuthPattern o with
       | some c => [c]
       | Option.none => []) := rfl
  cases ht : detectTraditionalPattern o with
  | none =>
    cases hoa : detectOAuthPattern o with
    | none =>
      rw [hcomp, ht, hoa]
      refine ⟨by simp, by simp, by simp, by simp, by simp⟩
    | some c2 =>
      have e2 := detectOAuthPattern_type o c2 hoa
      rw [hcomp, ht, hoa]
      refine ⟨by simp, ?_, ?_, ?_, ?_⟩
      · intro c hc
        simp at hc
        subst hc
        exact Or.inr e2
      · simp [List.filter_cons, e2, hne1.symm]
      · simp [List.filter_cons, e2]
      · intro c hc
        simp at hc
        subst hc
        rw [e2]
        exact hne3
  | some c1 =>
    have e1 := detectTraditionalPattern_type o c1 ht
    cases hoa : detectOAuthPattern o with
    | none =>
      rw [hcomp, ht, hoa]
      refine ⟨by simp, ?_, ?_, ?_, ?_⟩
      · intro c hc
        simp at hc
        subst hc
        exact Or.inl e1
      · simp [List.filter_cons, e1]
      · simp [List.filter_cons, e1, hne1]
      · intro c hc
        simp at hc
        subst hc
        rw [e1]
        exact hne2
    | some c2 =>
      have e2 := detectOAuthPattern_type o c2 hoa
      rw [hcomp, ht, hoa]
      refine ⟨by simp, ?_, ?_, ?_, ?_⟩
      · intro c hc
        simp at hc
        rcases hc with hc | hc <;> subst hc
        · exact Or.inl e1
        · exact Or.inr e2
      · simp [List.filter_cons, e1, e2, hne1, hne1.symm]
      · simp [List.filter_cons, e1, e2, hne1]
      · intro c hc
        simp at hc
        rcases hc with hc | hc <;> subst hc
        · rw [e1]; exact hne2
        · rw [e2]; exact hne3

/-! ### Scraper and pool claim theorems -/

/-- Claim C2 — evaluation at the failing scenario. When the 60s total
timeout fires while `performScrape` would still complete successfully,
`scrapeWebsite` returns a failure but its `catch` closes nothing (the
`page`/`context` locals are assigned only after the awaited race), and
the detached `performScrape` success leaves both handles open forever:
a failure return with a created, never-closed page and context. -/
theorem scrapeWebsite_timeout_leak :
    scrapeWebsiteModel ⟨true, true, true, true⟩ =
      { success := false, returnedLive := false, ctxCreated := true, pageCreated := true,
        ctxEverClosed := false, pageEverClosed := false, closedBeforeReturn := false } ∧
    leaksHandle (scrapeWebsiteModel ⟨true, true, true, true⟩) = true :=
  ⟨rfl, rfl⟩

/-! ### Cache claim theorems -/

/-- Shared round-trip core: a successful result is stored under the
normalized key and read back verbatim while fresh. -/
theorem cache_roundtrip_aux (st : CacheState) (u : String) (r : DetectionResult)
    (t1 t2 : Nat) (hs : r.success = true)
    (hfresh : t2 < t1 + getTTL u r.detectionMethod) :
    (cacheGet t2 u (cacheSet t1 u r st)).1 = some r := by
  have hset : cacheSet t1 u r st =
      { st with entries :=
          (normalizeURL u,
            { result := r, cachedAt := t1,
              expiresAt := t1 + getTTL u r.detectionMethod,
              start := t1, ttl := getTTL u r.detectionMethod }) ::
            removeKey (normalizeURL u) st.entries } := by
    unfold cacheSet
    simp [hs, CACHE_EMPTY_RESULTS, CACHE_PATTERN_RESULTS]
  rw [hset]
  unfold cacheGet lookupEntry
  simp [List.find?_cons, hfresh]

/-- Claim C4: under the default configuration every successful result
is cacheable (including `found=false` and pattern results); after
`set(u, r)`, a `get(u)` within the TTL returns `r` with the cache
metadata stripped; a `set` with `success=false` stores nothing, and a
`get` on a key with no entry returns absent. -/
theorem cache_set_get_roundtrip :
    (∀ (st : CacheState) (u : String) (r : DetectionResult) (t1 t2 : Nat),
      r.success = true → t2 < t1 + getTTL u r.detectionMethod →
      (cacheGet t2 u (cacheSet t1 u r st)).1 = some r) ∧
    (∀ (st : CacheState) (u : String) (r : DetectionResult) (t1 : Nat),
      r.success = false → cacheSet t1 u r st = st) ∧
    (∀ (st : CacheState) (u : String) (t2 : Nat),
      lookupEntry (normalizeURL u) st.entries = Option.none →
      (cacheGet t2 u st).1 = Option.none) := by
  refine ⟨cache_roundtrip_aux, ?_, ?_⟩
  · intro st u r t1 hf
    unfold cacheSet
    simp [hf]
  · intro st u t2 h
    simp only [cacheGet]
    rw [h]

/-- Witness for C4 at a concrete empty cache and AI result. -/
theorem cache_set_get_roundtrip_witness :
    (cacheGet 1000 "https://example.com/login"
        (cacheSet 0 "https://example.com/login"
          (DetectionResult.mk true "https://example.com/login" false [] .ai Option.none)
          CacheState.empty)).1 =
      some (DetectionResult.mk true "https://example.com/login" false [] .ai Option.none) ∧
    cacheSet 0 "https://example.com/login"
        (DetectionResult.mk false "https://example.com/login" false [] .none Option.none)
        CacheState.empty = CacheState.empty ∧
    (cacheGet 1000 "https://example.com/login" CacheState.empty).1 = Option.none :=
  ⟨cache_set_get_roundtrip.1 CacheState.empty "https://example.com/login"
      (DetectionResult.mk true "https://example.com/login" false [] .ai Option.none)
      0 1000 rfl (by decide),
   cache_set_get_roundtrip.2.1 CacheState.empty "https://example.com/login"
      (DetectionResult.mk false "https://example.com/login" false [] .none Option.none)
      0 rfl,
   cache_set_get_roundtrip.2.2 CacheState.empty "https://example.com/login" 1000 rfl⟩

/-- Claim C10: a string that does not parse as a URL is its own cache
key (`normalizeURL` returns it unchanged), takes the default TTL, and
the cache operations on it stay mutually consistent: a successful set
followed by a get within the default TTL on the very same malformed
string hits. -/
theorem cache_unparseable_url_consistent :
    ∀ u : String, parseURL u = Option.none →
      normalizeURL u = u ∧
      (∀ m, getTTL u m = DEFAULT_TTL) ∧
      (∀ (st : CacheState) (r : DetectionResult) (t1 t2 : Nat),
        r.success = true → t2 < t1 + DEFAULT_TTL →
        (cacheGet t2 u (cacheSet t1 u r st)).1 = some r) := by
  intro u h
  have httl : ∀ m, getTTL u m = DEFAULT_TTL := by
    intro m
    unfold getTTL
    rw [h]
  refine ⟨by unfold normalizeURL; rw [h], httl, ?_⟩
  intro st r t1 t2 hs hf
  apply cache_roundtrip_aux st u r t1 t2 hs
  rw [httl r.detectionMethod]
  exact hf

/-- Witness for C10 at the malformed string `"not a url"`. -/
theorem cache_unparseable_url_consistent_witness :
    normalizeURL "not a url" = "not a url" ∧
    getTTL "not a url" .pattern = DEFAULT_TTL ∧
    (cacheGet 5 "not a url"
        (cacheSet 0 "not a url"
          (DetectionResult.mk true "not a url" true [] .pattern Option.none)
          CacheState.empty)).1 =
      some (DetectionResult.mk true "not a url" true [] .pattern Option.none) :=
  ⟨(cache_unparseable_url_consistent "not a url" (by decide)).1,
   (cache_unparseable_url_consistent "not a url" (by decide)).2.1 .pattern,
   (cache_unparseable_url_consistent "not a url" (by decide)).2.2 CacheState.empty
     (DetectionResult.mk true "not a url" true [] .pattern Option.none) 0 5 rfl (by decide)⟩

/-- The initial pool state satisfies the invariant. -/
theorem poolInv_init : PoolInv PoolState.init := by
  refine ⟨by simp [PoolState.init], by simp [PoolState.init], ?_, ?_⟩ <;>
    simp [PoolState.init]

/-- Every pool event preserves the invariant. -/
theorem poolInv_step (s : PoolState) (e : PoolEvent) (h : PoolInv s) :
    PoolInv (poolStep s e) := by
  obtain ⟨h1, h2, h3, h4⟩ := h
  cases e with
  | call =>
    simp only [poolStep]
    split_ifs with hb hw
    · exact ⟨h1, h2, h3, h4⟩
    · refine ⟨h1, h2, h3, ?_⟩
      intro w hw2
      rcases List.mem_cons.mp hw2 with h' | h'
      · subst h'
        obtain ⟨hi, hp⟩ := hw
        have hne : s.inFlight ≠ [] := h2.mp hi
        obtain ⟨p, hpf⟩ : ∃ p, s.inFlight = [p] := by
          cases hf : s.inFlight with
          | nil => exact absurd hf hne
          | cons a t =>
            cases t with
            | nil => exact ⟨a, rfl⟩
            | cons b t2 => rw [hf] at h1; simp at h1
        rw [hpf, h3 p hpf]
        simp
      · exact h4 w h'
    · have hempty : s.inFlight = [] := by
        by_contra hne
        obtain ⟨p, hpf⟩ : ∃ p, s.inFlight = [p] := by
          cases hf : s.inFlight with
          | nil => exact absurd hf hne
          | cons a t =>
            cases t with
            | nil => exact ⟨a, rfl⟩
            | cons b t2 => rw [hf] at h1; simp at h1
        exact hw ⟨h2.mpr (by rw [hpf]; simp), by rw [h3 p hpf]; simp⟩
      refine ⟨by simp [hempty], by simp [hempty], ?_, ?_⟩
      · intro p hp
        simp only [hempty, List.cons.injEq] at hp
        rw [hp.1]
      · intro w hw2
        rcases List.mem_cons.mp hw2 with h' | h'
        · rw [h', hempty]
        · exact absurd (h4 w h') (by rw [hempty]; simp)
  | finishOk i =>
    simp only [poolStep]
    split_ifs with hi
    · have hif : s.inFlight.filter (fun j => j ≠ i) = [] := by
        obtain ⟨p, hpf⟩ : ∃ p, s.inFlight = [p] := by
          cases hf : s.inFlight with
          | nil => rw [hf] at hi; simp at hi
          | cons a t =>
            cases t with
            | nil => exact ⟨a, rfl⟩
            | cons b t2 => rw [hf] at h1; simp at h1
        have hpi : i = p := by
          rw [hpf] at hi
          simpa using hi
        subst hpi
        rw [hpf]
        simp
      rw [hif]
      exact ⟨by simp, by simp, by simp, by simp⟩
    · exact ⟨h1, h2, h3, h4⟩
  | finishFail i =>
    simp only [poolStep]
    split_ifs with hi
    · have hif : s.inFlight.filter (fun j => j ≠ i) = [] := by
        obtain ⟨p, hpf⟩ : ∃ p, s.inFlight = [p] := by
          cases hf : s.inFlight with
          | nil => rw [hf] at hi; simp at hi
          | cons a t =>
            cases t with
            | nil => exact ⟨a, rfl⟩
            | cons b t2 => rw [hf] at h1; simp at h1
        have hpi : i = p := by
          rw [hpf] at hi
          simpa using hi
        subst hpi
        rw [hpf]
        simp
      rw [hif]
      exact ⟨by simp, by simp, by simp, by simp⟩
    · exact ⟨h1, h2, h3, h4⟩
  | disconnect => exact ⟨h1, h2, h3, h4⟩
  | idleClose => exact ⟨h1, h2, h3, h4⟩

/-- The invariant holds in every reachable pool state. -/
theorem poolRun_inv (tr : List PoolEvent) : PoolInv (poolRun PoolState.init tr) := by
  suffices h : ∀ s, PoolInv s → PoolInv (poolRun s tr) from h _ poolInv_init
  induction tr with
  | nil => intro s hs; exact hs
  | cons e es ih =>
    intro s hs
    exact ih _ (poolInv_step s e hs)

/-- Calls arriving during the single in-flight launch only join its
promise: the state is unchanged except for the waiting list. -/
theorem poolRun_calls_aux (k : Nat) : ∀ w : List Nat,
    poolRun ⟨false, true, some 0, 1, [0], w⟩ (List.replicate k .call) =
      ⟨false, true, some 0, 1, [0], List.replicate k 0 ++ w⟩ := by
  induction k with
  | zero => intro w; rfl
  | succ n ih =>
    intro w
    rw [List.replicate_succ]
    have hstep : poolStep ⟨false, true, some 0, 1, [0], w⟩ .call =
        ⟨false, true, some 0, 1, [0], 0 :: w⟩ := rfl
    have hfold : poolRun ⟨false, true, some 0, 1, [0], w⟩ (.call :: List.replicate n .call) =
        poolRun ⟨false, true, some 0, 1, [0], 0 :: w⟩ (List.replicate n .call) := by
      unfold poolRun
      rw [List.foldl_cons, hstep]
    rw [hfold, ih (0 :: w)]
    have : List.replicate n 0 ++ 0 :: w = List.replicate (n + 1) 0 ++ w := by
      rw [List.replicate_succ']
      simp
    rw [this]

/-- Claim C7: every reachable pool state has at most one in-flight
launch and every waiting caller awaits exactly that launch; and N ≥ 1
concurrent `createContext`/`getBrowser` calls arriving while no browser
exists start exactly one launch (`nextId = 1`), leave that single
launch in flight, and make all N callers await its promise (id 0). -/
theorem browserPool_single_launch :
    (∀ tr : List PoolEvent,
      (poolRun PoolState.init tr).inFlight.length ≤ 1 ∧
      ∀ w ∈ (poolRun PoolState.init tr).waiting,
        (poolRun PoolState.init tr).inFlight = [w]) ∧
    (∀ n : Nat, 1 ≤ n →
      poolRun PoolState.init (List.replicate n .call) =
        ⟨false, true, some 0, 1, [0], List.replicate n 0⟩) := by
  constructor
  · intro tr
    have h := poolRun_inv tr
    exact ⟨h.1, h.2.2.2⟩
  · intro n hn
    obtain ⟨m, rfl⟩ : ∃ m, n = m + 1 := ⟨n - 1, by omega⟩
    rw [List.replicate_succ]
    have hstep : poolStep PoolState.init .call = ⟨false, true, some 0, 1, [0], [0]⟩ := rfl
    have hfold : poolRun PoolState.init (.call :: List.replicate m .call) =
        poolRun ⟨false, true, some 0, 1, [0], [0]⟩ (List.replicate m .call) := by
      unfold poolRun
      rw [List.foldl_cons, hstep]
    rw [hfold, poolRun_calls_aux m [0]]
    rw [List.replicate_succ']

/-- Witness for C7: three concurrent calls cause one launch; a
call/finish/call trace keeps at most one launch in flight. -/
theorem browserPool_single_launch_witness :
    poolRun PoolState.init (List.replicate 3 .call) =
      ⟨false, true, some 0, 1, [0], [0, 0, 0]⟩ ∧
    (poolRun PoolState.init [.call, .finishOk 0, .call]).inFlight.length ≤ 1 :=
  ⟨by rw [browserPool_single_launch.2 3 (by decide)]; rfl,
   (browserPool_single_launch.1 [.call, .finishOk 0, .call]).1⟩

/-! ### URL claim theorems -/

/-- `lowerA` is idempotent: its outputs are its fixed points. -/
theorem lowerA_idem (c : Char) : lowerA (lowerA c) = lowerA c := by
  generalize h : lowerA c = d
  unfold lowerA at h
  split at h <;> subst h <;> first | rfl | (unfold lowerA; split <;> simp_all)

/-- `lowerA` preserves scheme characters and letters, and never maps a
non-delimiter onto a URL delimiter. -/
theorem lowerA_props (c : Char) :
    (isSchemeChar c = true → isSchemeChar (lowerA c) = true) ∧
    (c.isAlpha = true → (lowerA c).isAlpha = true) ∧
    (lowerA c = ':' → c = ':') ∧ (lowerA c = '/' → c = '/') ∧
    (lowerA c = '?' → c = '?') ∧ (lowerA c = '#' → c = '#') ∧
    (lowerA c = '@' → c = '@') := by
  unfold lowerA
  split <;>
    first
      | (refine ⟨?_, ?_, ?_, ?_, ?_, ?_, ?_⟩ <;> intro hx <;> first | decide | rfl | simp_all)
      | simp_all

/-- A list whose elements are all fixed by `f` maps to itself. -/
theorem map_eq_self_of_all {α} [DecidableEq α] (f : α → α) (l : List α)
    (h : l.all (fun c => f c = c) = true) : l.map f = l := by
  induction l with
  | nil => rfl
  | cons a as ih =>
    rw [List.all_cons, Bool.and_eq_true] at h
    have h1 : f a = a := by simpa using h.1
    rw [List.map_cons, h1, ih h.2]

/-- The head surviving a `dropWhile` fails the predicate. -/
theorem dropWhile_head_not {α} (p : α → Bool) (l : List α) :
    ∀ c rest, l.dropWhile p = c :: rest → p c = false := by
  induction l with
  | nil => intro c rest h; simp at h
  | cons a as ih =>
    intro c rest h
    rw [List.dropWhile_cons] at h
    split_ifs at h with ha
    · exact ih c rest h
    · cases h
      exact Bool.not_eq_true _ ▸ eq_false_of_ne_true ha

/-- `lowerA` preserves freedom from the authority delimiters. -/
theorem lowerA_no_delim (c : Char)
    (h : (!isAuthEnd c && c ≠ ':' && c ≠ '@') = true) :
    (!isAuthEnd (lowerA c) && lowerA c ≠ ':' && lowerA c ≠ '@') = true := by
  unfold lowerA
  split <;> first | decide | exact h

/-- A character that ends an authority but is neither `?` nor `#` is `/`. -/
theorem authEnd_not_query (c : Char) (h1 : isAuthEnd c = true)
    (h2 : (!(c = '?') && !(c = '#')) = true) : c = '/' := by
  unfold isAuthEnd at h1
  rcases Bool.or_eq_true_iff.mp h1 with h | h
  · rcases Bool.or_eq_true_iff.mp h with h | h
    · simpa using h
    · rw [Bool.and_eq_true] at h2
      exact absurd (by simpa using h) (by simpa using h2.1)
  · rw [Bool.and_eq_true] at h2
    exact absurd (by simpa using h) (by simpa using h2.2)


/-- Well-formedness of the scheme `parseURL` builds. -/
theorem scheme_wf_aux (c0 : Char) (t0 : List Char) (halpha : c0.isAlpha = true)
    (hsch : ∀ x ∈ c0 :: t0, isSchemeChar x = true) :
    (!((c0 :: t0).map lowerA).isEmpty) = true ∧
    (match (c0 :: t0).map lowerA with
     | c :: _ => c.isAlpha
     | [] => false) = true ∧
    ((c0 :: t0).map lowerA).all isSchemeChar = true ∧
    ((c0 :: t0).map lowerA).all (fun c => lowerA c = c) = true := by
  refine ⟨by simp, ?_, ?_, ?_⟩
  · simpa using (lowerA_props c0).2.1 halpha
  · rw [List.all_map, List.all_eq_true]
    intro x hx
    exact (lowerA_props x).1 (hsch x hx)
  · rw [List.all_map, List.all_eq_true]
    intro x _
    simpa using lowerA_idem x

/-- Well-formedness of the host `parseURL` builds, for any authority. -/
theorem host_wf_aux (r : List Char) :
    ((List.takeWhile (fun c => c ≠ ':')
        ((List.takeWhile (fun c => c ≠ '@')
          (List.takeWhile (fun c => !isAuthEnd c) r).reverse).reverse)).map lowerA).all
        (fun c => !isAuthEnd c && c ≠ ':' && c ≠ '@') = true ∧
    ((List.takeWhile (fun c => c ≠ ':')
        ((List.takeWhile (fun c => c ≠ '@')
          (List.takeWhile (fun c => !isAuthEnd c) r).reverse).reverse)).map lowerA).all
        (fun c => lowerA c = c) = true := by
  constructor
  · rw [List.all_map, List.all_eq_true]
    intro y hy
    have hyc : y ≠ ':' := by simpa using List.mem_takeWhile_imp hy
    have hy2 : y ∈ List.takeWhile (fun c => c ≠ '@')
        (List.takeWhile (fun c => !isAuthEnd c) r).reverse := by
      have h1 := (List.takeWhile_sublist (fun c => decide (c ≠ ':'))).subset hy
      exact List.mem_reverse.mp h1
    have hyat : y ≠ '@' := by simpa using List.mem_takeWhile_imp hy2
    have hy3 : y ∈ List.takeWhile (fun c => !isAuthEnd c) r :=
      List.mem_reverse.mp ((List.takeWhile_sublist _).subset hy2)
    have hyend := List.mem_takeWhile_imp hy3
    exact lowerA_no_delim y (by simp_all)
  · rw [List.all_map, List.all_eq_true]
    intro y _
    simpa using lowerA_idem y

/-- Well-formedness of a non-empty path `parseURL` builds. -/
theorem path_wf_aux (r : List Char)
    (hpe : (List.takeWhile (fun c => c ≠ '?' && c ≠ '#')
      (List.dropWhile (fun c => !isAuthEnd c) r)).isEmpty = false) :
    (match List.takeWhile (fun c => c ≠ '?' && c ≠ '#')
        (List.dropWhile (fun c => !isAuthEnd c) r) with
     | '/' :: _ => true
     | _ => false) = true ∧
    (List.takeWhile (fun c => c ≠ '?' && c ≠ '#')
        (List.dropWhile (fun c => !isAuthEnd c) r)).all
      (fun c => c ≠ '?' && c ≠ '#') = true := by
  constructor
  · cases hr : List.dropWhile (fun c => !isAuthEnd c) r with
    | nil => rw [hr] at hpe; simp at hpe
    | cons c1 r1 =>
      rw [hr] at hpe
      rw [List.takeWhile_cons] at hpe ⊢
      split_ifs at hpe ⊢ with hq
      · have hend : isAuthEnd c1 = true := by
          have := dropWhile_head_not _ r c1 r1 hr
          simpa using this
        have hc1 : c1 = '/' := authEnd_not_query c1 hend (by simpa using hq)
        rw [hc1]
        rfl
      · simp at hpe
  · rw [List.all_eq_true]
    intro x hx
    simpa using List.mem_takeWhile_imp hx

/-- Everything `parseURL` accepts is well-formed. -/
theorem parseURL_wf (u : String) (p : URLParts) (hp : parseURL u = some p) :
    wfURL p = true := by
  simp only [parseURL] at hp
  split at hp
  next heq => exact absurd hp (by simp)
  next c0 t0 heq1 =>
    split_ifs at hp with halpha
    have halpha' : c0.isAlpha = true := by simpa using halpha
    have hsch : ∀ x ∈ c0 :: t0, isSchemeChar x = true := by
      intro x hx
      rw [← heq1] at hx
      exact List.mem_takeWhile_imp hx
    split at hp
    next r heq2 =>
      split_ifs at hp with hhost hpe
      · -- empty-path branch: path is ['/']
        rw [← Option.some.inj hp]
        simp only [wfURL, heq1, Bool.and_eq_true]
        obtain ⟨s1, s2, s3, s4⟩ := scheme_wf_aux c0 t0 halpha' hsch
        obtain ⟨hh1, hh2⟩ := host_wf_aux r
        refine ⟨⟨⟨⟨⟨⟨⟨⟨s1, s2⟩, s3⟩, s4⟩, ?_⟩, hh1⟩, hh2⟩, by simp⟩, by decide⟩
        simpa using hhost
      · -- non-empty-path branch
        rw [← Option.some.inj hp]
        simp only [wfURL, heq1, Bool.and_eq_true]
        obtain ⟨s1, s2, s3, s4⟩ := scheme_wf_aux c0 t0 halpha' hsch
        obtain ⟨hh1, hh2⟩ := host_wf_aux r
        obtain ⟨pp1, pp2⟩ := path_wf_aux r (by simpa using hpe)
        refine ⟨⟨⟨⟨⟨⟨⟨⟨s1, s2⟩, s3⟩, s4⟩, ?_⟩, hh1⟩, hh2⟩, pp1⟩, pp2⟩
        simpa using hhost
    next x heq2 => exact absurd hp (by simp)

/-- Re-parsing a rendered well-formed URL recovers its components. -/
theorem parseURL_render (q : URLParts) (hq : wfURL q = true) :
    parseURL (String.mk (renderURL q.scheme q.host q.path)) = some q := by
  simp only [wfURL, Bool.and_eq_true] at hq
  obtain ⟨⟨⟨⟨⟨⟨⟨⟨hs1, hs2⟩, hs3⟩, hs4⟩, hh0⟩, hh1⟩, hh2⟩, hp1⟩, hp2⟩ := hq
  obtain ⟨pt, hpath⟩ : ∃ pt, q.path = '/' :: pt := by
    cases hpp : q.path with
    | nil => rw [hpp] at hp1; exact absurd hp1 (by simp)
    | cons a l =>
      rw [hpp] at hp1
      split at hp1
      next tail heqm => exact ⟨tail, heqm⟩
      next x heqm => exact absurd hp1 (by simp)
  have hallhost : q.host.all (fun c => !isAuthEnd c) = true := by
    rw [List.all_eq_true] at hh1 ⊢
    intro x hx
    have := hh1 x hx
    rw [Bool.and_eq_true, Bool.and_eq_true] at this
    exact this.1.1
  have hnoat : q.host.all (fun c => c ≠ '@') = true := by
    rw [List.all_eq_true] at hh1 ⊢
    intro x hx
    have := hh1 x hx
    rw [Bool.and_eq_true] at this
    exact this.2
  have hnocolon : q.host.all (fun c => c ≠ ':') = true := by
    rw [List.all_eq_true] at hh1 ⊢
    intro x hx
    have := hh1 x hx
    rw [Bool.and_eq_true, Bool.and_eq_true] at this
    exact this.1.2
  have hdata : (String.mk (renderURL q.scheme q.host q.path)).data =
      q.scheme ++ ':' :: '/' :: '/' :: (q.host ++ q.path) := by
    simp [renderURL]
  have h1 : (q.scheme ++ ':' :: '/' :: '/' :: (q.host ++ q.path)).takeWhile isSchemeChar =
      q.scheme := takeWhile_append_done _ _ _ _ hs3 (by decide)
  have h2 : (q.scheme ++ ':' :: '/' :: '/' :: (q.host ++ q.path)).dropWhile isSchemeChar =
      ':' :: '/' :: '/' :: (q.host ++ q.path) := dropWhile_append_done _ _ _ _ hs3 (by decide)
  have h3 : (q.host ++ q.path).takeWhile (fun c => !isAuthEnd c) = q.host := by
    rw [hpath]
    exact takeWhile_append_done _ _ _ _ hallhost (by decide)
  have h4 : (q.host ++ q.path).dropWhile (fun c => !isAuthEnd c) = q.path := by
    rw [hpath]
    exact dropWhile_append_done _ _ _ _ hallhost (by decide)
  have h5 : q.host.reverse.takeWhile (fun c => c ≠ '@') = q.host.reverse :=
    takeWhile_all _ _ (by rw [List.all_reverse]; exact hnoat)
  have h7 : q.host.takeWhile (fun c => c ≠ ':') = q.host := takeWhile_all _ _ hnocolon
  have h8 : q.host.map lowerA = q.host := map_eq_self_of_all _ _ hh2
  have h9 : q.scheme.map lowerA = q.scheme := map_eq_self_of_all _ _ hs4
  have h10 : q.host.isEmpty = false := by simpa using hh0
  have h11 : q.path.takeWhile (fun c => c ≠ '?' && c ≠ '#') = q.path :=
    takeWhile_all _ _ hp2
  have h12 : q.path.isEmpty = false := by rw [hpath]; rfl
  cases hsch : q.scheme with
  | nil => rw [hsch] at hs1; simp at hs1
  | cons c0 t0 =>
    have halpha : c0.isAlpha = true := by
      rw [hsch] at hs2
      simpa using hs2
    rw [hsch] at h1 h2 h9
    have hrend : renderURL (c0 :: t0) q.host q.path =
        (c0 :: t0) ++ ':' :: '/' :: '/' :: (q.host ++ q.path) := rfl
    simp only [parseURL, hdata, hrend, hsch, h1, h2, h3, h4, h5, List.reverse_reverse,
      h7, h8, h9, h10, h11, h12, halpha, Bool.not_true, Bool.false_eq_true, if_false]
    rw [← hsch]

/-- `stripWWW` preserves element-wise predicates. -/
theorem stripWWW_all (p : Char → Bool) (h : List Char) (hall : h.all p = true) :
    (stripWWW h).all p = true := by
  unfold stripWWW
  split_ifs with hc
  · rw [List.all_eq_true] at hall ⊢
    intro x hx
    exact hall x (List.drop_subset 4 h hx)
  · exact hall

/-- `stripWWW` is the identity on hosts without a leading `www.`. -/
theorem stripWWW_id_of_no_www (h : List Char)
    (hw : "www.".data.isPrefixOf h = false) : stripWWW h = h := by
  unfold stripWWW
  rw [hw]
  simp

/-- The slash-drop keeps the leading slash. -/
theorem dropTrailingSlash_shape (path : List Char) (h : ∃ pt, path = '/' :: pt) :
    ∃ pt, dropTrailingSlash path = '/' :: pt := by
  obtain ⟨pt, rfl⟩ := h
  unfold dropTrailingSlash
  split_ifs with hc
  · cases pt with
    | nil => exact absurd rfl hc.2
    | cons b l => exact ⟨(b :: l).dropLast, rfl⟩
  · exact ⟨pt, rfl⟩

/-- The slash-drop preserves element-wise predicates. -/
theorem dropTrailingSlash_all (p : Char → Bool) (path : List Char)
    (h : path.all p = true) : (dropTrailingSlash path).all p = true := by
  unfold dropTrailingSlash
  split_ifs with hc
  · rw [List.all_eq_true] at h ⊢
    intro x hx
    exact h x ((List.dropLast_sublist path).subset hx)
  · exact h

/-- `normalizeURL`'s rewriting preserves URL well-formedness as long as
the `www.`-strip does not empty the host. -/
theorem wfURL_transform (p : URLParts) (hp : wfURL p = true)
    (hh : (stripWWW p.host).isEmpty = false) :
    wfURL ⟨p.scheme, stripWWW p.host, dropTrailingSlash p.path⟩ = true := by
  simp only [wfURL, Bool.and_eq_true] at hp ⊢
  obtain ⟨⟨⟨⟨⟨⟨⟨⟨s1, s2⟩, s3⟩, s4⟩, hh0⟩, hh1⟩, hh2⟩, hp1⟩, hp2⟩ := hp
  have hshape : ∃ pt, p.path = '/' :: pt := by
    cases hpp : p.path with
    | nil => rw [hpp] at hp1; exact absurd hp1 (by simp)
    | cons a l =>
      rw [hpp] at hp1
      split at hp1
      next tail heqm => exact ⟨tail, heqm⟩
      next x heqm => exact absurd hp1 (by simp)
  obtain ⟨pt2, hdts⟩ := dropTrailingSlash_shape p.path hshape
  refine ⟨⟨⟨⟨⟨⟨⟨⟨s1, s2⟩, s3⟩, s4⟩, by simpa using hh⟩, stripWWW_all _ _ hh1⟩,
    stripWWW_all _ _ hh2⟩, ?_⟩, dropTrailingSlash_all _ _ hp2⟩
  rw [hdts]
  rfl

/-- Rendering with an empty host never parses back (the model of
`new URL` throwing on `https:///path`). -/
theorem parseURL_render_no_host (scheme path : List Char)
    (hsne : scheme ≠ []) (hs3 : scheme.all isSchemeChar = true)
    (hpath : ∃ pt, path = '/' :: pt) :
    parseURL (String.mk (renderURL scheme [] path)) = Option.none := by
  obtain ⟨pt, rfl⟩ := hpath
  obtain ⟨c0, t0, rfl⟩ : ∃ c0 t0, scheme = c0 :: t0 := by
    cases scheme with
    | nil => exact absurd rfl hsne
    | cons a l => exact ⟨a, l, rfl⟩
  have h1 : List.takeWhile isSchemeChar (c0 :: (t0 ++ ':' :: '/' :: '/' :: '/' :: pt)) =
      c0 :: t0 := by
    simpa using takeWhile_append_done isSchemeChar (c0 :: t0) ':' ('/' :: '/' :: '/' :: pt)
      hs3 (by decide)
  have h2 : List.dropWhile isSchemeChar (c0 :: (t0 ++ ':' :: '/' :: '/' :: '/' :: pt)) =
      ':' :: '/' :: '/' :: '/' :: pt := by
    simpa using dropWhile_append_done isSchemeChar (c0 :: t0) ':' ('/' :: '/' :: '/' :: pt)
      hs3 (by decide)
  have hauth : (('/' : Char) :: pt).takeWhile (fun c => !isAuthEnd c) = [] := by
    rw [List.takeWhile_cons]
    simp [isAuthEnd]
  by_cases halpha : c0.isAlpha = true
  · simp [parseURL, renderURL, h1, h2, halpha, hauth]
  · simp [parseURL, renderURL, h1, h2, halpha]

/-- `normalizeURL` on a parseable URL, written out. -/
theorem normalizeURL_parse_some (u : String) (p : URLParts) (hp : parseURL u = some p) :
    normalizeURL u =
      String.mk (renderURL p.scheme (stripWWW p.host) (dropTrailingSlash p.path)) := by
  unfold normalizeURL
  rw [hp]

/-- `normalizeURL` on an unparseable string is the identity. -/
theorem normalizeURL_parse_none (u : String) (hp : parseURL u = Option.none) :
    normalizeURL u = u := by
  unfold normalizeURL
  rw [hp]

/-- **C6** (counterexample): `normalizeURL` is not idempotent. The
`replace(/^www\./, '')` strips only one `www.` per call, so the cache
key of `https://www.www.example.com/a` still starts with `www.` and a
second normalization changes it again. -/
theorem normalizeURL_not_idempotent_cex :
    normalizeURL (normalizeURL "https://www.www.example.com/a") ≠
      normalizeURL "https://www.www.example.com/a" := by
  decide

/-- **C6** (amended): `normalizeURL` is idempotent on every input whose
parsed host does not retain a `www.` prefix after one strip and whose
path needs at most one trailing-slash drop (`stableKey`); and two
spellings of the same page — upper-case host with `www.` and trailing
slash, versus bare host with a query string — do map to one cache key. -/
theorem normalizeURL_idempotent_amended :
    (∀ u : String, stableKey u = true →
      normalizeURL (normalizeURL u) = normalizeURL u) ∧
    normalizeURL "https://www.EXAMPLE.com/a/" = normalizeURL "https://example.com/a?x=1" := by
  constructor
  · intro u hst
    cases hp : parseURL u with
    | none => rw [normalizeURL_parse_none u hp, normalizeURL_parse_none u hp]
    | some p =>
      unfold stableKey at hst
      rw [hp] at hst
      simp only [Bool.and_eq_true, Bool.not_eq_true', beq_iff_eq] at hst
      obtain ⟨hw, hsl⟩ := hst
      have hwf := parseURL_wf u p hp
      rw [normalizeURL_parse_some u p hp]
      by_cases he : (stripWWW p.host).isEmpty = true
      · have hnil : stripWWW p.host = [] := by
          cases hcase : stripWWW p.host with
          | nil => rfl
          | cons a l => rw [hcase] at he; exact absurd he (by simp)
        have hwf' := hwf
        simp only [wfURL, Bool.and_eq_true] at hwf'
        obtain ⟨⟨⟨⟨⟨⟨⟨⟨s1, _⟩, s3⟩, _⟩, _⟩, _⟩, _⟩, hp1⟩, _⟩ := hwf'
        have hsne : p.scheme ≠ [] := by simpa using s1
        have hshape : ∃ pt, p.path = '/' :: pt := by
          cases hpp : p.path with
          | nil => rw [hpp] at hp1; exact absurd hp1 (by simp)
          | cons a l =>
            rw [hpp] at hp1
            split at hp1
            next tail heqm => exact ⟨tail, heqm⟩
            next x heqm => exact absurd hp1 (by simp)
        rw [hnil]
        exact normalizeURL_parse_none _
          (parseURL_render_no_host p.scheme (dropTrailingSlash p.path) hsne s3
            (dropTrailingSlash_shape p.path hshape))
      · have hwf2 := wfURL_transform p hwf (by simpa using he)
        rw [normalizeURL_parse_some _ _
          (parseURL_render ⟨p.scheme, stripWWW p.host, dropTrailingSlash p.path⟩ hwf2)]
        dsimp only
        rw [stripWWW_id_of_no_www _ hw, hsl]
  · decide

/-- Witness: the first conjunct of the amended idempotence theorem at
the concrete input `https://www.EXAMPLE.com/a/`, the side condition
checked by evaluation. -/
theorem normalizeURL_idempotent_amended_witness :
    normalizeURL (normalizeURL "https://www.EXAMPLE.com/a/") =
      normalizeURL "https://www.EXAMPLE.com/a/" :=
  normalizeURL_idempotent_amended.1 "https://www.EXAMPLE.com/a/" (by decide)
